import Mathlib

/-!
Verification of trans_labs, a string-rewriting grammar search.

A shallow embedding of `main.go` (package `main`): the occurrence scanner
(`stringIndexFrom`), the rewriter (`replaceFrom`, `addBrackets`), the forward
search (`findSequences`) and the backward search (`findPath`).

Modelling conventions.

* A Go `string` is a `List Char`; one `Char` stands for one byte.
  `strings.ToLower` lower-cases the ASCII letters and replaces a byte of `0x80`
  or above by the encoding of `U+FFFD`, as the library does on a byte that
  starts no valid UTF-8 sequence; the case mapping of valid multi-byte
  characters is not modelled.
* The package-level flags (`-s`, `-d`, `-max`, `-min`, `-v`) are the fields of
  `Config`, threaded through every call.
* `fmt.Println` output is modelled as the list of emitted results, in emission
  order; a result is the printed sequence together with the path that the
  verbose mode prints in front of it.  `findSequencesStdout` returns the
  written text itself.
* The two searches need not terminate (a scan for an empty text never reaches
  "not found"), so both are defined with a fuel argument: `none` means the fuel ran out, `some out` is the complete
  output of a call that returned.
* The depth is a Go `int` of 64 bits, carried as an integer; `depth - 1` is
  `intPred`, which wraps around from the smallest value to the largest.
* The path is a Go `[]string`.  `findSequences` and `findPath` carry it as a list
  value; `findSequencesS` carries it as a slice header over a store of backing
  arrays, with `append` writing in place when there is spare capacity, and is
  proved to emit the same results.
* The rule file is the list of its lines as the scanner delivers them.
-/

namespace TransLabs

/-- Go `string`, as a list of single-byte symbols. -/
abbrev Str := List Char

/-- The struct `Transition` with its fields `from` and `to`: one rule `from -> to`. -/
structure Transition where
  from_ : Str
  to_ : Str
  deriving DecidableEq, Repr

/-- The flag variables of `main.go`. -/
structure Config where
  inputSequence : Str
  maxDepth : Int
  maxLength : Int
  minLength : Int
  verbose : Bool
  deriving DecidableEq, Repr

/-- One emitted result: the printed sequence and the recorded path. -/
abbrev Result := Str × List Str

/-! ## Library functions used by the program -/

/-- First index at which `sub` is a prefix of the remaining text, if any
(the search behind `strings.Index`). -/
def indexOpt (sub : Str) : Str → Option Nat
  | [] => if sub.isPrefixOf [] then some 0 else none
  | c :: t => if sub.isPrefixOf (c :: t) then some 0 else (indexOpt sub t).map (· + 1)

/-- Library `strings.Index(s, sub)`: index of the first instance of `sub` in `s`, or `-1`. -/
def stringsIndex (s sub : Str) : Int :=
  match indexOpt sub s with
  | some i => (i : Int)
  | none => -1

/-- Library `strings.Replace(s, old, new, 1)`: the first instance of `old` replaced by `new`. -/
def stringsReplace1 (s old new : Str) : Str :=
  match indexOpt old s with
  | some i => s.take i ++ new ++ s.drop (i + old.length)
  | none => s

/-- The UTF-8 encoding `EF BF BD` of `U+FFFD`, which the library writes in place of a
byte that starts no valid UTF-8 sequence. -/
def runeErrorBytes : Str := [Char.ofNat 0xEF, Char.ofNat 0xBF, Char.ofNat 0xBD]

/-- Library `strings.ToLower(seq)`, for a sequence that holds no valid multi-byte UTF-8
sequence: an ASCII byte is lower-cased (`A`..`Z` become `a`..`z`), and a byte of `0x80`
or above, which then starts no valid UTF-8 sequence, is replaced by the encoding of
`U+FFFD`.  (A valid multi-byte sequence is mapped through the Unicode case tables of the
library, which are not part of this development; the statements below that depend on
how a sequence is classified are stated for ASCII sequences, or hold for every
classification.) -/
def stringsToLower (seq : Str) : Str :=
  seq.flatMap (fun c => if c.toNat < 128 then [c.toLower] else runeErrorBytes)

/-- Library `strings.ToUpper(seq)` on a sequence of ASCII bytes (used by `checkTerminal`,
which the program never calls). -/
def stringsToUpper (seq : Str) : Str := seq.map Char.toUpper

/-- Library `strings.Join(path, sep)`. -/
def stringsJoin (path : List Str) (sep : Str) : Str := sep.intercalate path

/-! ## The program -/

/-- Source `checkNonTerminal`: lower-casing changes the sequence. -/
def checkNonTerminal (seq : Str) : Bool := stringsToLower seq != seq

/-- Source `checkTerminal`: upper-casing changes the sequence. -/
def checkTerminal (seq : Str) : Bool := stringsToUpper seq != seq

/-- Source `checkStart`: the sequence is not the start symbol `"S"`. -/
def checkStart (seq : Str) : Bool := seq != "S".toList

/-- Source `stringIndexFrom(s, sub, from)`.  The offset is a natural number: Go panics on
`s[from:]` for a negative `from`, and the callers only pass `0` or a match index
plus one. -/
def stringIndexFrom (s sub : Str) (frm : Nat) : Int :=
  let frm := if frm > s.length then s.length else frm
  let ind := stringsIndex (s.drop frm) sub
  if ind != -1 then ind + frm else ind

/-- Source `replaceFrom(s, old, new, from)`: `s[:from] + strings.Replace(s[from:], old, new, 1)`.
(Go panics when `from > len(s)`; the callers pass a match index.) -/
def replaceFrom (s old new : Str) (frm : Nat) : Str :=
  s.take frm ++ stringsReplace1 (s.drop frm) old new

/-- Source `addBrackets(s, from, to)`: `s[:from] + "[" + s[from:to] + "]" + s[to:]`. -/
def addBrackets (s : Str) (frm upto : Nat) : Str :=
  s.take frm ++ "[".toList ++ (s.take upto).drop frm ++ "]".toList ++ s.drop upto

/-- The step rendering `fmt.Sprintf("('%s'=>'%s')", shown, to)`. -/
def sprintfStep (shown repl : Str) : Str :=
  "('".toList ++ shown ++ "'=>'".toList ++ repl ++ "')".toList

/-- Source `checkMinLen`. -/
def checkMinLen (cfg : Config) (seq : Str) : Bool :=
  if cfg.minLength = -1 then true else decide ((seq.length : Int) ≥ cfg.minLength)

/-- Source `checkMaxLen`. -/
def checkMaxLen (cfg : Config) (seq : Str) : Bool :=
  if cfg.maxLength = -1 then true else decide ((seq.length : Int) ≤ cfg.maxLength)

/-- Source `checkDepth`. -/
def checkDepth (cfg : Config) (depth : Int) : Bool :=
  if cfg.maxDepth = -1 then true else decide (depth ≤ cfg.maxDepth)

/-- The smallest value of a Go `int` on a 64-bit target. -/
def minInt : Int := -9223372036854775808

/-- The largest value of a Go `int` on a 64-bit target. -/
def maxInt : Int := 9223372036854775807

/-- The expression `depth - 1` on a Go `int`: the subtraction wraps around, from the
smallest value to the largest. -/
def intPred (depth : Int) : Int := if depth = minInt then maxInt else depth - 1

/-- The scan loop shared by both searches:
`for last = stringIndexFrom(s, sub, 0); last != -1; last = stringIndexFrom(s, sub, last) { body(last); last++ }`,
entered with the scan origin `frm`.  The outputs of the bodies are concatenated in
execution order. -/
def scanLoop {α : Type} (body : Nat → Option (List α)) (s sub : Str) :
    Nat → Nat → Option (List α)
  | 0, _ => none
  | fuel + 1, frm =>
    let last := stringIndexFrom s sub frm
    if last = -1 then some []
    else
      match body last.toNat with
      | none => none
      | some out =>
        match scanLoop body s sub fuel (last.toNat + 1) with
        | none => none
        | some rest => some (out ++ rest)

/-- The loop `for _, tr := range *transitions { body(tr) }`. -/
def forTransitions {α : Type} (body : Transition → Option (List α)) :
    List Transition → Option (List α)
  | [] => some []
  | tr :: rest =>
    match body tr with
    | none => none
    | some out =>
      match forTransitions body rest with
      | none => none
      | some more => some (out ++ more)

/-- Source `findSequences(transitions, sequence, depth, path)`: the forward search. -/
def findSequences (cfg : Config) (transitions : List Transition) :
    Nat → Str → Int → List Str → Option (List Result)
  | 0, _, _, _ => none
  | fuel + 1, sequence, depth, path =>
    if !checkNonTerminal sequence then
      if !checkMaxLen cfg sequence || !checkMinLen cfg sequence then some []
      else some [(sequence, path)]
    else if depth = 0 then some []
    else
      forTransitions (fun tr =>
        scanLoop (fun last =>
          let newSeq := replaceFrom sequence tr.from_ tr.to_ last
          let newPath := sprintfStep (addBrackets sequence last (last + tr.from_.length)) tr.to_
          findSequences cfg transitions fuel newSeq (intPred depth) (path ++ [newPath]))
          sequence tr.from_ fuel 0) transitions

/-- Source `findSequences(transitions, sequence, depth, path)`, observed on the standard
output: the same control flow as `findSequences`, returning the text written by
`fmt.Print(strings.Join(path, ",") + " ")` (when `*verbose`) and
`fmt.Println("'" + sequence + "'")`, in execution order. -/
def findSequencesStdout (cfg : Config) (transitions : List Transition) :
    Nat → Str → Int → List Str → Option Str
  | 0, _, _, _ => none
  | fuel + 1, sequence, depth, path =>
    if !checkNonTerminal sequence then
      if !checkMaxLen cfg sequence || !checkMinLen cfg sequence then some []
      else
        some ((if cfg.verbose then stringsJoin path ",".toList ++ " ".toList else []) ++
          ("'".toList ++ sequence ++ "'".toList ++ "\n".toList))
    else if depth = 0 then some []
    else
      forTransitions (fun tr =>
        scanLoop (fun last =>
          let newSeq := replaceFrom sequence tr.from_ tr.to_ last
          let newPath := sprintfStep (addBrackets sequence last (last + tr.from_.length)) tr.to_
          findSequencesStdout cfg transitions fuel newSeq (intPred depth) (path ++ [newPath]))
          sequence tr.from_ fuel 0) transitions

/-- Source `findPath(transitions, sequence, depth, path)`: the backward search. -/
def findPath (cfg : Config) (transitions : List Transition) :
    Nat → Str → Int → List Str → Option (List Result)
  | 0, _, _, _ => none
  | fuel + 1, sequence, depth, path =>
    if !checkStart sequence then some [(cfg.inputSequence, path)]
    else if depth = 0 then some []
    else
      forTransitions (fun tr =>
        scanLoop (fun last =>
          let newSeq := replaceFrom sequence tr.to_ tr.from_ last
          let newPath := sprintfStep (addBrackets newSeq last (last + tr.from_.length)) tr.to_
          findPath cfg transitions fuel newSeq (intPred depth) (newPath :: path))
          sequence tr.to_ fuel 0) transitions

/-! ## Specification vocabulary -/

/-- Go slice expression `s[i:j]`. -/
def slice (s : Str) (i j : Nat) : Str := (s.take j).drop i

/-- The text `sub` occurs in `s` at index `i`: `s[i : i+len(sub)] == sub`. -/
def occursAt (s sub : Str) (i : Nat) : Prop :=
  i + sub.length ≤ s.length ∧ slice s i (i + sub.length) = sub

instance (s sub : Str) (i : Nat) : Decidable (occursAt s sub i) := by
  unfold occursAt; exact inferInstance

/-- All occurrence indices of `sub` in `s`, in ascending order. -/
def occurrences (s sub : Str) : List Nat :=
  (List.range (s.length + 1)).filter (fun i => decide (occursAt s sub i))

/-- Occurrence indices of `sub` in `s` that are at or after `frm`, ascending. -/
def occFrom (s sub : Str) (frm : Nat) : List Nat :=
  (List.range' frm (s.length + 1 - frm)).filter (fun i => decide (occursAt s sub i))

/-- Total length of the rule texts: no rewrite (forward or backward) lengthens a
sequence by more than this. -/
def ruleWidth (trs : List Transition) : Nat :=
  (trs.map (fun tr => tr.from_.length + tr.to_.length)).sum

/-- Fuel that suffices for a search of depth `d` from `s`. -/
def fuelBound (trs : List Transition) (s : Str) (d : Nat) : Nat :=
  s.length + d * (ruleWidth trs + 1) + 2

/-- The output of a forward search that returns: the recursion of `findSequences`
over the occurrence lists, for a natural-number depth. -/
def forwardOut (cfg : Config) (trs : List Transition) : Nat → Str → List Str → List Result
  | 0, s, path =>
    if !checkNonTerminal s then
      if !checkMaxLen cfg s || !checkMinLen cfg s then [] else [(s, path)]
    else []
  | d + 1, s, path =>
    if !checkNonTerminal s then
      if !checkMaxLen cfg s || !checkMinLen cfg s then [] else [(s, path)]
    else
      trs.flatMap (fun tr =>
        (occurrences s tr.from_).flatMap (fun i =>
          forwardOut cfg trs d (replaceFrom s tr.from_ tr.to_ i)
            (path ++ [sprintfStep (addBrackets s i (i + tr.from_.length)) tr.to_])))

/-- The sequence contains an uppercase letter `A`..`Z` (a nonterminal symbol). -/
def hasUpper (seq : Str) : Prop := ∃ c ∈ seq, c.isUpper = true

/-- The sequence consists of ASCII bytes only. -/
def isAscii (seq : Str) : Prop := ∀ c ∈ seq, c.toNat < 128

instance (seq : Str) : Decidable (isAscii seq) := by
  unfold isAscii; exact inferInstance

/-- The sequence `s` with the span of the rule's pattern at offset `i` replaced by the
rule's replacement: `s[:i] + to + s[i+len(from):]`. -/
def rewriteAt (s : Str) (tr : Transition) (i : Nat) : Str :=
  s.take i ++ tr.to_ ++ s.drop (i + tr.from_.length)

/-- One forward rewrite: `s'` is `s` with one occurrence of some rule's pattern
replaced by that rule's replacement. -/
def rewritesTo (trs : List Transition) (s s' : Str) : Prop :=
  ∃ tr ∈ trs, ∃ i, occursAt s tr.from_ i ∧ s' = rewriteAt s tr i

/-- There is a chain `start = c 0, c 1, ..., c k = w` of `k ≤ d` forward rewrites in
which every sequence before the last contains an uppercase letter. -/
def derivesWithin (trs : List Transition) (d : Nat) (start w : Str) : Prop :=
  ∃ (k : Nat) (c : Nat → Str), k ≤ d ∧ c 0 = start ∧ c k = w ∧
    ∀ i, i < k → rewritesTo trs (c i) (c (i + 1)) ∧ hasUpper (c i)

/-- The length of `w` satisfies the configured bounds (`-1` means no bound). -/
def withinBounds (cfg : Config) (w : Str) : Prop :=
  (cfg.maxLength = -1 ∨ (w.length : Int) ≤ cfg.maxLength) ∧
  (cfg.minLength = -1 ∨ cfg.minLength ≤ (w.length : Int))

instance (cfg : Config) (w : Str) : Decidable (withinBounds cfg w) := by
  unfold withinBounds; exact inferInstance

/-- The configuration with both length bounds unset. -/
def unbounded (cfg : Config) : Config := { cfg with maxLength := -1, minLength := -1 }

/-- The grammar `S -> aSb | ~` as `parseLine` builds it. -/
def grammarAnBn : List Transition := [⟨"S".toList, "aSb".toList⟩, ⟨"S".toList, []⟩]

/-- The grammar `S -> aAA`, `A -> ~`. -/
def grammarShrink : List Transition := [⟨"S".toList, "aAA".toList⟩, ⟨"A".toList, []⟩]

/-- The flags `-s S -d 3` with both length bounds unset. -/
def cfgDepth3 : Config := ⟨"S".toList, 3, -1, -1, false⟩

/-- The sequence `s` with the span of the rule's replacement at offset `i` replaced by
the rule's pattern (a backward step): `s[:i] + from + s[i+len(to):]`. -/
def unrewriteAt (s : Str) (tr : Transition) (i : Nat) : Str :=
  s.take i ++ tr.from_ ++ s.drop (i + tr.to_.length)

/-- The output of a backward search that returns: the recursion of `findPath` over the
occurrence lists, for a natural-number depth. -/
def backwardOut (cfg : Config) (trs : List Transition) : Nat → Str → List Str → List Result
  | 0, s, path => if !checkStart s then [(cfg.inputSequence, path)] else []
  | d + 1, s, path =>
    if !checkStart s then [(cfg.inputSequence, path)]
    else
      trs.flatMap (fun tr =>
        (occurrences s tr.to_).flatMap (fun i =>
          backwardOut cfg trs d (replaceFrom s tr.to_ tr.from_ i)
            (sprintfStep (addBrackets (replaceFrom s tr.to_ tr.from_ i) i
              (i + tr.from_.length)) tr.to_ :: path)))

/-- One recorded derivation step: the source sequence, the offset of the rewritten
span and the rule applied there. -/
structure Step where
  src : Str
  off : Nat
  rule : Transition

/-- The path entry recorded for a step: the source sequence with the matched span in
brackets, and the replacement. -/
def Step.render (st : Step) : Str :=
  sprintfStep (addBrackets st.src st.off (st.off + st.rule.from_.length)) st.rule.to_

/-- The steps form a forward derivation from `cur` to `target`: each step starts from
the current sequence, its rule is in the rule set, its pattern occurs at its offset,
and rewriting there gives the source of the next step (the target after the last). -/
def validDerivation (trs : List Transition) : Str → Str → List Step → Prop
  | cur, target, [] => cur = target
  | cur, target, st :: rest =>
    st.src = cur ∧ st.rule ∈ trs ∧ occursAt cur st.rule.from_ st.off ∧
      validDerivation trs (rewriteAt cur st.rule st.off) target rest

/-- The grammar `S -> aA`, `A -> b`. -/
def grammarAB : List Transition := [⟨"S".toList, "aA".toList⟩, ⟨"A".toList, "b".toList⟩]

/-- One backward step: `s'` is `s` with one occurrence of some rule's replacement text
replaced by that rule's pattern text. -/
def reducesTo (trs : List Transition) (s s' : Str) : Prop :=
  ∃ tr ∈ trs, ∃ i, occursAt s tr.to_ i ∧ s' = unrewriteAt s tr i

/-- The list of `(rule index, offset)` choices is a reduction of `s` to `"S"` within
`d` steps: the list is empty when `s` is `"S"`; otherwise `s` is not `"S"`, a step is
left in the budget, the chosen rule's replacement occurs in `s` at the chosen offset,
and the remaining choices reduce the predecessor sequence within `d - 1` steps. -/
def validChoices (trs : List Transition) : List (Nat × Nat) → Nat → Str → Prop
  | [], _, s => s = "S".toList
  | (r, i) :: rest, d, s =>
    s ≠ "S".toList ∧ 0 < d ∧ ∃ tr, trs[r]? = some tr ∧ occursAt s tr.to_ i ∧
      validChoices trs rest (d - 1) (unrewriteAt s tr i)

/-- Enumeration of the reductions of `s` to `"S"` within `d` steps, as lists of
`(rule index, offset)` choices. -/
def choiceChains (trs : List Transition) : Nat → Str → List (List (Nat × Nat))
  | 0, s => if s = "S".toList then [[]] else []
  | d + 1, s =>
    if s = "S".toList then [[]]
    else
      trs.enum.flatMap (fun p =>
        (occurrences s p.2.to_).flatMap (fun i =>
          (choiceChains trs d (unrewriteAt s p.2 i)).map (fun c => (p.1, i) :: c)))

/-- The grammar `S -> ~`: one epsilon production. -/
def grammarEps : List Transition := [⟨"S".toList, []⟩]

/-- The recursion of `findSequences` with a ghost nesting level: the same control flow
(the path and the printing left out), returning the nesting level of every call made,
in call order.  The initial call is entered with level `0`; a recursive call runs one
level below its caller. -/
def findSequencesLevels (transitions : List Transition) :
    Nat → Str → Int → Nat → Option (List Nat)
  | 0, _, _, _ => none
  | fuel + 1, sequence, depth, level =>
    if !checkNonTerminal sequence then some [level]
    else if depth = 0 then some [level]
    else
      match forTransitions (fun tr =>
        scanLoop (fun last =>
          let newSeq := replaceFrom sequence tr.from_ tr.to_ last
          findSequencesLevels transitions fuel newSeq (intPred depth) (level + 1))
          sequence tr.from_ fuel 0) transitions with
      | none => none
      | some below => some (level :: below)

/-- The call levels of a forward search that returns, for a natural-number depth. -/
def forwardLevels (trs : List Transition) : Nat → Str → Nat → List Nat
  | 0, _, level => [level]
  | d + 1, s, level =>
    if !checkNonTerminal s then [level]
    else
      level :: trs.flatMap (fun tr =>
        (occurrences s tr.from_).flatMap (fun i =>
          forwardLevels trs d (replaceFrom s tr.from_ tr.to_ i) (level + 1)))

/-- The check in `init`: the flags are rejected when both `-d` and `-max` are `-1`. -/
def validBudget (cfg : Config) : Bool := !(cfg.maxDepth = -1 && cfg.maxLength = -1)

/-- The grammar `S -> aS`: every rewrite lengthens the sequence by one. -/
def grammarGrow : List Transition := [⟨"S".toList, "aS".toList⟩]

/-- The flags `-s S -d -1 -max 2`: the depth value documented as "no limit", sequences
of length at most 2. -/
def cfgNoDepth : Config := ⟨"S".toList, -1, 2, -1, false⟩

/-- The loop of `strings.Split` for a non-empty separator: cut at the first instance of
`sep`, continue behind it, stop when `strings.Index` finds none.  The fuel only makes
the recursion structural; `stringsSplit` supplies enough. -/
def splitLoop (sep : Str) : Nat → Str → List Str
  | 0, s => [s]
  | fuel + 1, s =>
    match indexOpt sep s with
    | none => [s]
    | some m => s.take m :: splitLoop sep fuel (s.drop (m + sep.length))

/-- Library `strings.Split(s, sep)` for a non-empty separator `sep`. -/
def stringsSplit (s sep : Str) : List Str := splitLoop sep (s.length + 1) s

/-- Library `strings.HasPrefix(s, pre)`. -/
def stringsHasPrefix (s pre : Str) : Bool := pre.isPrefixOf s

/-- The constant `emptyString = "~"`. -/
def emptyString : Str := "~".toList

/-- Source `parseLine(line)`; the `nil` result is the empty list. -/
def parseLine (line : Str) : List Transition :=
  let buf := stringsSplit line "->".toList
  if buf.length != 2 then []
  else
    (stringsSplit (buf.getD 1 []) "|".toList).map (fun val =>
      let val := if val = emptyString then [] else val
      ⟨buf.getD 0 [], val⟩)

/-- Source `parseFile`, on the lines the scanner delivers from the opened file: comment
lines are skipped, the rules of the other lines are appended in order. -/
def parseFile (lines : List Str) : List Transition :=
  lines.flatMap (fun text => if stringsHasPrefix text "//".toList then [] else parseLine text)

/-- The grammar `S -> AB`, `A -> a`, `B -> b`. -/
def grammarTwoOrders : List Transition :=
  [⟨"S".toList, "AB".toList⟩, ⟨"A".toList, "a".toList⟩, ⟨"B".toList, "b".toList⟩]

/-- There is a chain `x = c 0, ..., c k = "S"` of `k ≤ d` backward steps in which no
sequence before the last is `"S"`. -/
def reducesWithin (trs : List Transition) (d : Nat) (x : Str) : Prop :=
  ∃ (k : Nat) (c : Nat → Str), k ≤ d ∧ c 0 = x ∧ c k = "S".toList ∧
    ∀ i, i < k → reducesTo trs (c i) (c (i + 1)) ∧ c i ≠ "S".toList

/-- A Go slice header of a `[]string`: the backing array (an index into the store),
the length and the capacity. -/
structure Slice where
  arr : Nat
  len : Nat
  cap : Nat
  deriving DecidableEq, Repr

/-- The store of backing arrays; array `a` is `st.getD a []`, its length is the number
of cells allocated for it. -/
abbrev Store := List (List Str)

/-- The elements of the slice `p`: the first `len` cells of its backing array. -/
def readSlice (st : Store) (p : Slice) : List Str := (st.getD p.arr []).take p.len

/-- Go `append(p, x)` on a `[]string`.  With spare capacity the new element is written
into the shared backing array in place; otherwise a new array is allocated, the elements
are copied and the new element is written behind them.  The capacity the runtime picks
for a new array is the parameter `grow` (at least the needed length). -/
def appendSlice (grow : Nat → Nat) (st : Store) (p : Slice) (x : Str) : Store × Slice :=
  if p.len < p.cap then
    (st.set p.arr ((st.getD p.arr []).set p.len x), ⟨p.arr, p.len + 1, p.cap⟩)
  else
    let c := max (grow (p.len + 1)) (p.len + 1)
    (st ++ [readSlice st p ++ [x] ++ List.replicate (c - (p.len + 1)) []],
      ⟨st.length, p.len + 1, c⟩)

/-- The scan loop with a state threaded through the bodies. -/
def scanLoopS {σ α : Type} (body : σ → Nat → Option (σ × List α)) (s sub : Str) :
    Nat → σ → Nat → Option (σ × List α)
  | 0, _, _ => none
  | fuel + 1, st, frm =>
    let last := stringIndexFrom s sub frm
    if last = -1 then some (st, [])
    else
      match body st last.toNat with
      | none => none
      | some (st1, out) =>
        match scanLoopS body s sub fuel st1 (last.toNat + 1) with
        | none => none
        | some (st2, rest) => some (st2, out ++ rest)

/-- The loop over the transitions with a state threaded through the bodies. -/
def forTransitionsS {σ α : Type} (body : σ → Transition → Option (σ × List α)) :
    σ → List Transition → Option (σ × List α)
  | st, [] => some (st, [])
  | st, tr :: rest =>
    match body st tr with
    | none => none
    | some (st1, out) =>
      match forTransitionsS body st1 rest with
      | none => none
      | some (st2, more) => some (st2, out ++ more)

/-- Source `findSequences` with the path as a Go slice: `append(path, newPath)` acts on
the store of backing arrays, and an emitted result reads its path from the store at the
time it is printed. -/
def findSequencesS (grow : Nat → Nat) (cfg : Config) (transitions : List Transition) :
    Nat → Store → Str → Int → Slice → Option (Store × List Result)
  | 0, _, _, _, _ => none
  | fuel + 1, st, sequence, depth, path =>
    if !checkNonTerminal sequence then
      if !checkMaxLen cfg sequence || !checkMinLen cfg sequence then some (st, [])
      else some (st, [(sequence, readSlice st path)])
    else if depth = 0 then some (st, [])
    else
      forTransitionsS (fun st tr =>
        scanLoopS (fun st last =>
          let newSeq := replaceFrom sequence tr.from_ tr.to_ last
          let newPath := sprintfStep (addBrackets sequence last (last + tr.from_.length)) tr.to_
          let sp := appendSlice grow st path newPath
          findSequencesS grow cfg transitions fuel sp.1 newSeq (intPred depth) sp.2)
          sequence tr.from_ fuel st 0) st transitions

/-- The slice `p` is well formed in the store: its array exists and holds at least
`cap` cells, and `len ≤ cap`. -/
def wfSlice (st : Store) (p : Slice) : Prop :=
  p.arr < st.length ∧ p.len ≤ p.cap ∧ p.cap ≤ (st.getD p.arr []).length

/-- From `st` to `st'` no array is removed or resized, and no cell is changed except
cells of the array of `p` at index `len` or beyond (the spare capacity of `p`). -/
def preserves (st st' : Store) (p : Slice) : Prop :=
  st.length ≤ st'.length ∧
    ∀ a, a < st.length →
      (st'.getD a []).length = (st.getD a []).length ∧
        ∀ i, (a ≠ p.arr ∨ i < p.len) → (st'.getD a [])[i]? = (st.getD a [])[i]?

/-- The text that the terminal branch of `findSequencesStdout` writes for the result
`(sequence, path)`. -/
def printResult (cfg : Config) (r : Result) : Str :=
  (if cfg.verbose then stringsJoin r.2 ",".toList ++ " ".toList else []) ++
    ("'".toList ++ r.1 ++ "'".toList ++ "\n".toList)

/-- The flags `-s S -d 2 -v` with both length bounds unset. -/
def cfgVerbose : Config := ⟨"S".toList, 2, -1, -1, true⟩

/-- The flags `-d 3` with both length bounds unset and, as `-s`, the single byte `0xFF`,
which is not valid UTF-8. -/
def cfgInvalidByte : Config := ⟨[Char.ofNat 0xFF], 3, -1, -1, false⟩

/-- The number of decrements that take a Go `int` to `0`: `d` for `d ≥ 0`, and
`d + 2^64` for `d < 0`, where the decrement wraps around. -/
def callsToZero (depth : Int) : Nat :=
  if 0 ≤ depth then depth.toNat else (depth + 18446744073709551616).toNat

/-! ## Lemmas -/

theorem intPred_natCast_succ (d : Nat) : intPred ((d + 1 : Nat) : Int) = (d : Int) := by
  unfold intPred minInt
  have h : ¬ (((d + 1 : Nat) : Int) = -9223372036854775808) := by omega
  rw [if_neg h]
  omega

theorem intPred_of_pos (depth : Int) (h : 0 < depth) : intPred depth = depth - 1 := by
  unfold intPred minInt
  have h' : ¬ (depth = -9223372036854775808) := by omega
  rw [if_neg h']

theorem occursAt_iff_starts (s sub : Str) (i : Nat) :
    occursAt s sub i ↔ i ≤ s.length ∧ sub <+: s.drop i := by
  unfold occursAt slice
  constructor
  · rintro ⟨h1, h2⟩
    refine ⟨by omega, ?_⟩
    rw [List.prefix_iff_eq_take]
    rw [← h2]
    simp [List.drop_take, List.length_take]
  · rintro ⟨h1, h2⟩
    have hl := h2.length_le
    rw [List.length_drop] at hl
    refine ⟨by omega, ?_⟩
    rw [List.prefix_iff_eq_take] at h2
    rw [List.drop_take]
    simpa using h2.symm

theorem indexOpt_some (sub : Str) : ∀ (s : Str) (i : Nat),
    indexOpt sub s = some i ↔ (sub <+: s.drop i ∧ ∀ j, j < i → ¬ sub <+: s.drop j) := by
  intro s
  induction s with
  | nil =>
    intro i
    simp only [indexOpt, List.isPrefixOf_iff_prefix, List.drop_nil]
    by_cases h : sub <+: []
    · simp only [h, if_true, Option.some.injEq]
      constructor
      · rintro rfl; simp
      · rintro ⟨_, h2⟩
        by_contra hne
        exact h2 0 (by omega) trivial
    · simp [h]
  | cons c t ih =>
    intro i
    simp only [indexOpt, List.isPrefixOf_iff_prefix]
    by_cases h : sub <+: c :: t
    · simp only [h, if_true, Option.some.injEq]
      constructor
      · rintro rfl; simp [h]
      · rintro ⟨_, h2⟩
        by_contra hne
        exact h2 0 (by omega) (by simpa using h)
    · simp only [h, if_false, Option.map_eq_some']
      constructor
      · rintro ⟨a, ha, rfl⟩
        rw [ih] at ha
        refine ⟨by simpa using ha.1, ?_⟩
        intro j hj
        cases j with
        | zero => simpa using h
        | succ j => simpa using ha.2 j (by omega)
      · rintro ⟨h1, h2⟩
        cases i with
        | zero => exact absurd (by simpa using h1) h
        | succ i =>
          refine ⟨i, ?_, rfl⟩
          rw [ih]
          refine ⟨by simpa using h1, ?_⟩
          intro j hj
          simpa using h2 (j + 1) (by omega)

theorem indexOpt_none (sub s : Str) :
    indexOpt sub s = none ↔ ∀ j, ¬ sub <+: s.drop j := by
  induction s with
  | nil =>
    simp only [indexOpt, List.isPrefixOf_iff_prefix, List.drop_nil]
    by_cases h : sub <+: [] <;> simp [h]
  | cons c t ih =>
    simp only [indexOpt, List.isPrefixOf_iff_prefix]
    by_cases h : sub <+: c :: t
    · simp only [h, if_true]
      constructor
      · intro h'; cases h'
      · intro h'; exact absurd (by simpa using h) (h' 0)
    · simp only [h, if_false, Option.map_eq_none']
      rw [ih]
      constructor
      · intro h' j
        cases j with
        | zero => simpa using h
        | succ j => simpa using h' j
      · intro h' j
        simpa using h' (j + 1)

theorem stringIndexFrom_eq (s sub : Str) (frm : Nat) (h : frm ≤ s.length) :
    stringIndexFrom s sub frm =
      match indexOpt sub (s.drop frm) with
      | some j => ((j + frm : Nat) : Int)
      | none => -1 := by
  unfold stringIndexFrom stringsIndex
  have h' : ¬ frm > s.length := by omega
  simp only [h', if_false]
  cases indexOpt sub (s.drop frm) with
  | none => simp
  | some j =>
    simp only [bne_iff_ne, ne_eq]
    have : ¬ ((j : Int) = -1) := by omega
    simp [this]

theorem prefix_drop_iff_occursAt (s sub : Str) (i : Nat) (h : i ≤ s.length) :
    sub <+: s.drop i ↔ occursAt s sub i := by
  rw [occursAt_iff_starts]; simp [h]

theorem stringIndexFrom_eq_neg_one (s sub : Str) (frm : Nat) (h : frm ≤ s.length) :
    stringIndexFrom s sub frm = -1 ↔ ∀ i, frm ≤ i → ¬ occursAt s sub i := by
  rw [stringIndexFrom_eq s sub frm h]
  constructor
  · intro h1 i hi hocc
    cases hidx : indexOpt sub (s.drop frm) with
    | some j =>
      rw [hidx] at h1
      have h1' : ((j + frm : Nat) : Int) = -1 := h1
      omega
    | none =>
      rw [indexOpt_none] at hidx
      apply hidx (i - frm)
      rw [List.drop_drop]
      have : frm + (i - frm) = i := by omega
      rw [this]
      exact ((occursAt_iff_starts s sub i).1 hocc).2
  · intro h1
    cases hidx : indexOpt sub (s.drop frm) with
    | none => rfl
    | some j =>
      exfalso
      rw [indexOpt_some] at hidx
      have hp := hidx.1
      rw [List.drop_drop] at hp
      by_cases hle : frm + j ≤ s.length
      · exact h1 (frm + j) (by omega) ((prefix_drop_iff_occursAt s sub _ hle).1 hp)
      · rw [List.drop_eq_nil_of_le (by omega)] at hp
        have hsub : sub = [] := List.prefix_nil.1 hp
        apply h1 s.length h
        rw [occursAt_iff_starts]
        exact ⟨le_refl _, by rw [hsub]; exact List.nil_prefix⟩

theorem stringIndexFrom_eq_nat (s sub : Str) (frm : Nat) (h : frm ≤ s.length) (i : Nat) :
    stringIndexFrom s sub frm = (i : Int) ↔
      (frm ≤ i ∧ occursAt s sub i ∧ ∀ j, frm ≤ j → j < i → ¬ occursAt s sub j) := by
  rw [stringIndexFrom_eq s sub frm h]
  constructor
  · intro h1
    cases hidx : indexOpt sub (s.drop frm) with
    | none =>
      rw [hidx] at h1
      have h1' : (-1 : Int) = (i : Int) := h1
      omega
    | some j =>
      rw [hidx] at h1
      have h1' : ((j + frm : Nat) : Int) = (i : Int) := h1
      have hij : i = j + frm := by omega
      subst hij
      rw [indexOpt_some] at hidx
      obtain ⟨hp, hmin⟩ := hidx
      rw [List.drop_drop] at hp
      have hle : frm + j ≤ s.length := by
        by_contra hgt
        rw [List.drop_eq_nil_of_le (by omega)] at hp
        have hsub : sub = [] := List.prefix_nil.1 hp
        have hj : 0 < j := by omega
        apply hmin 0 hj
        rw [hsub]; exact List.nil_prefix
      refine ⟨by omega, ?_, ?_⟩
      · rw [Nat.add_comm] at hp hle
        exact (prefix_drop_iff_occursAt s sub _ hle).1 hp
      · intro k hk1 hk2 hocc
        apply hmin (k - frm) (by omega)
        rw [List.drop_drop]
        have : frm + (k - frm) = k := by omega
        rw [this]
        exact ((occursAt_iff_starts s sub k).1 hocc).2
  · rintro ⟨h1, h2, h3⟩
    cases hidx : indexOpt sub (s.drop frm) with
    | none =>
      exfalso
      rw [indexOpt_none] at hidx
      apply hidx (i - frm)
      rw [List.drop_drop]
      have : frm + (i - frm) = i := by omega
      rw [this]
      exact ((occursAt_iff_starts s sub i).1 h2).2
    | some j =>
      simp only
      rw [indexOpt_some] at hidx
      obtain ⟨hp, hmin⟩ := hidx
      rw [List.drop_drop] at hp
      have hi_le := ((occursAt_iff_starts s sub i).1 h2).1
      have hji : ¬ (i - frm < j) := by
        intro hlt
        apply hmin (i - frm) hlt
        rw [List.drop_drop]
        have : frm + (i - frm) = i := by omega
        rw [this]
        exact ((occursAt_iff_starts s sub i).1 h2).2
      have hij : ¬ (frm + j < i) := by
        intro hlt
        exact h3 (frm + j) (by omega) hlt
          ((prefix_drop_iff_occursAt s sub _ (by omega)).1 hp)
      have : j + frm = i := by omega
      exact_mod_cast this

theorem stringIndexFrom_cases (s sub : Str) (frm : Nat) :
    stringIndexFrom s sub frm = -1 ∨ ∃ i : Nat, stringIndexFrom s sub frm = (i : Int) := by
  unfold stringIndexFrom stringsIndex
  simp only []
  generalize (if frm > s.length then s.length else frm) = k
  cases indexOpt sub (List.drop k s) with
  | none => left; simp
  | some j =>
    right
    refine ⟨j + k, ?_⟩
    simp only [bne_iff_ne, ne_eq]
    have : ¬ ((j : Int) = -1) := by omega
    simp [this]

theorem occurrences_eq_occFrom (s sub : Str) : occurrences s sub = occFrom s sub 0 := by
  unfold occurrences occFrom
  rw [List.range_eq_range']
  rfl

theorem mem_occFrom (s sub : Str) (frm i : Nat) :
    i ∈ occFrom s sub frm ↔ frm ≤ i ∧ occursAt s sub i := by
  unfold occFrom
  simp only [List.mem_filter, List.mem_range'_1, decide_eq_true_eq]
  constructor
  · rintro ⟨⟨h1, _⟩, h3⟩; exact ⟨h1, h3⟩
  · rintro ⟨h1, h2⟩
    have := h2.1
    exact ⟨⟨h1, by omega⟩, h2⟩

theorem mem_occurrences (s sub : Str) (i : Nat) :
    i ∈ occurrences s sub ↔ occursAt s sub i := by
  rw [occurrences_eq_occFrom, mem_occFrom]; simp

theorem occFrom_not_found (s sub : Str) (frm : Nat) (h : frm ≤ s.length)
    (hnf : stringIndexFrom s sub frm = -1) : occFrom s sub frm = [] := by
  rw [stringIndexFrom_eq_neg_one s sub frm h] at hnf
  unfold occFrom
  rw [List.filter_eq_nil_iff]
  intro a ha
  rw [List.mem_range'_1] at ha
  simpa using hnf a ha.1

theorem occFrom_found (s sub : Str) (frm i : Nat) (h : frm ≤ s.length)
    (hf : stringIndexFrom s sub frm = (i : Int)) :
    occFrom s sub frm = i :: occFrom s sub (i + 1) := by
  rw [stringIndexFrom_eq_nat s sub frm h] at hf
  obtain ⟨h1, h2, h3⟩ := hf
  have hi := h2.1
  unfold occFrom
  have hsplit : List.range' frm (s.length + 1 - frm) =
      List.range' frm (i - frm) ++ (i :: List.range' (i + 1) (s.length + 1 - (i + 1))) := by
    have e1 := List.range'_append frm (i - frm) (s.length + 1 - i) 1
    have e2 : frm + 1 * (i - frm) = i := by omega
    have e3 : s.length + 1 - i + (i - frm) = s.length + 1 - frm := by omega
    rw [e2, e3] at e1
    rw [← e1]
    have e4 : s.length + 1 - i = (s.length + 1 - (i + 1)) + 1 := by omega
    rw [e4, List.range'_succ]
  rw [hsplit, List.filter_append]
  have hnil : List.filter (fun i => decide (occursAt s sub i)) (List.range' frm (i - frm)) = [] := by
    rw [List.filter_eq_nil_iff]
    intro a ha
    rw [List.mem_range'_1] at ha
    simpa using h3 a ha.1 (by omega)
  rw [hnil, List.nil_append, List.filter_cons]
  simp [h2]

theorem scanLoop_eq {α : Type} (body : Nat → Option (List α)) (g : Nat → List α)
    (s sub : Str) (hsub : sub ≠ []) :
    ∀ (fuel frm : Nat), frm ≤ s.length → s.length + 1 ≤ fuel + frm →
      (∀ i ∈ occFrom s sub frm, body i = some (g i)) →
      scanLoop body s sub fuel frm = some ((occFrom s sub frm).flatMap g) := by
  intro fuel
  induction fuel with
  | zero => intro frm h1 h2; omega
  | succ fuel ih =>
    intro frm h1 h2 hbody
    unfold scanLoop
    rcases stringIndexFrom_cases s sub frm with hnf | ⟨i, hi⟩
    · simp [hnf, occFrom_not_found s sub frm h1 hnf]
    · have hocc := occFrom_found s sub frm i h1 hi
      have hspec := (stringIndexFrom_eq_nat s sub frm h1 i).1 hi
      have hlen : 0 < sub.length := List.length_pos.2 hsub
      have hi1 : i + 1 ≤ s.length := by have := hspec.2.1.1; omega
      have hne : ¬ ((i : Int) = -1) := by omega
      simp only [hi, hne, if_false, Int.toNat_ofNat]
      rw [hbody i (by rw [hocc]; simp)]
      rw [ih (i + 1) hi1 (by omega) (fun j hj => hbody j (by rw [hocc]; simp [hj]))]
      rw [hocc, List.flatMap_cons]

theorem forTransitions_eq {α : Type} (body : Transition → Option (List α))
    (g : Transition → List α) :
    ∀ (trs : List Transition), (∀ tr ∈ trs, body tr = some (g tr)) →
      forTransitions body trs = some (trs.flatMap g) := by
  intro trs
  induction trs with
  | nil => intro _; rfl
  | cons tr rest ih =>
    intro h
    unfold forTransitions
    rw [h tr (by simp), ih (fun t ht => h t (by simp [ht]))]
    simp

theorem replaceFrom_occursAt (s old new : Str) (i : Nat) (h : occursAt s old i) :
    replaceFrom s old new i = s.take i ++ new ++ s.drop (i + old.length) := by
  have hp := ((occursAt_iff_starts s old i).1 h).2
  have hidx : indexOpt old (s.drop i) = some 0 := by
    rw [indexOpt_some]
    exact ⟨by simpa using hp, fun j hj => by omega⟩
  unfold replaceFrom stringsReplace1
  rw [hidx]
  simp [List.drop_drop, List.append_assoc]

theorem le_ruleWidth (trs : List Transition) (tr : Transition) (h : tr ∈ trs) :
    tr.from_.length + tr.to_.length ≤ ruleWidth trs := by
  unfold ruleWidth
  exact List.single_le_sum (by simp) _ (List.mem_map_of_mem _ h)

theorem length_replaceFrom_le (s old new : Str) (i : Nat) (h : occursAt s old i) :
    (replaceFrom s old new i).length ≤ s.length + new.length := by
  rw [replaceFrom_occursAt s old new i h]
  simp only [List.length_append, List.length_take, List.length_drop]
  have := h.1
  omega

theorem findSequences_eq_forwardOut (cfg : Config) (trs : List Transition)
    (hpat : ∀ tr ∈ trs, tr.from_ ≠ []) :
    ∀ (d fuel : Nat) (s : Str) (path : List Str), fuelBound trs s d ≤ fuel →
      findSequences cfg trs fuel s (d : Int) path = some (forwardOut cfg trs d s path) := by
  intro d
  induction d with
  | zero =>
    intro fuel s path hf
    cases fuel with
    | zero => unfold fuelBound at hf; omega
    | succ f =>
      unfold findSequences forwardOut
      by_cases hnt : checkNonTerminal s <;> by_cases hb : (!checkMaxLen cfg s || !checkMinLen cfg s) <;>
        simp [hnt, hb]
  | succ d ih =>
    intro fuel s path hf
    cases fuel with
    | zero => unfold fuelBound at hf; omega
    | succ f =>
      unfold findSequences forwardOut
      by_cases hnt : checkNonTerminal s
      · have hd : ¬ (((d + 1 : Nat) : Int) = 0) := by omega
        have hd1 : intPred ((d + 1 : Nat) : Int) = (d : Int) := intPred_natCast_succ d
        simp only [hnt, Bool.not_true, Bool.false_eq_true, if_false, hd, hd1]
        apply forTransitions_eq
        intro tr htr
        rw [occurrences_eq_occFrom]
        apply scanLoop_eq _ _ s tr.from_ (hpat tr htr) f 0 (Nat.zero_le _)
        · unfold fuelBound at hf
          have : (d + 1) * (ruleWidth trs + 1) = d * (ruleWidth trs + 1) + (ruleWidth trs + 1) := by ring
          omega
        · intro i hi
          apply ih
          have hocc := ((mem_occFrom s tr.from_ 0 i).1 hi).2
          have hlen := length_replaceFrom_le s tr.from_ tr.to_ i hocc
          have hw := le_ruleWidth trs tr htr
          unfold fuelBound at hf ⊢
          have : (d + 1) * (ruleWidth trs + 1) = d * (ruleWidth trs + 1) + (ruleWidth trs + 1) := by ring
          omega
      · by_cases hb : (!checkMaxLen cfg s || !checkMinLen cfg s) <;> simp [hnt, hb]

theorem isUpper_iff (c : Char) : c.isUpper = true ↔ 65 ≤ c.toNat ∧ c.toNat ≤ 90 := by
  unfold Char.isUpper
  simp only [Bool.and_eq_true, decide_eq_true_eq, ge_iff_le, UInt32.le_def, BitVec.le_def]
  rfl

theorem toLower_eq_self_iff (c : Char) : c.toLower = c ↔ ¬ (c.isUpper = true) := by
  rw [isUpper_iff]
  unfold Char.toLower
  by_cases h : c.toNat ≥ 65 ∧ c.toNat ≤ 90
  · simp only [h, and_self, if_true, not_true_eq_false, iff_false]
    intro heq
    have hc : c = Char.ofNat c.toNat := (Char.ofNat_toNat c).symm
    obtain ⟨h1, h2⟩ := h
    generalize c.toNat = n at *
    subst hc
    interval_cases n <;> revert heq <;> decide
  · have h' : ¬ (65 ≤ c.toNat ∧ c.toNat ≤ 90) := h
    simp [h, h']

theorem length_le_stringsToLower (seq : Str) : seq.length ≤ (stringsToLower seq).length := by
  unfold stringsToLower
  induction seq with
  | nil => simp
  | cons c t ih =>
    rw [List.flatMap_cons, List.length_append, List.length_cons]
    by_cases hc : c.toNat < 128
    · simp only [hc, if_true, List.length_singleton]; omega
    · simp only [hc, if_false]
      have h3 : runeErrorBytes.length = 3 := rfl
      omega

theorem stringsToLower_eq_self_iff (seq : Str) :
    stringsToLower seq = seq ↔ isAscii seq ∧ ¬ hasUpper seq := by
  induction seq with
  | nil => simp [stringsToLower, isAscii, hasUpper]
  | cons c t ih =>
    have hcons : stringsToLower (c :: t) =
        (if c.toNat < 128 then [c.toLower] else runeErrorBytes) ++ stringsToLower t := by
      unfold stringsToLower
      rw [List.flatMap_cons]
    rw [hcons]
    by_cases hc : c.toNat < 128
    · simp only [hc, if_true, List.singleton_append, List.cons.injEq]
      rw [ih, toLower_eq_self_iff]
      unfold isAscii hasUpper
      simp only [List.mem_cons, forall_eq_or_imp, exists_eq_or_imp, not_or, not_exists, not_and]
      constructor
      · rintro ⟨h1, h2, h3⟩; exact ⟨⟨hc, h2⟩, h1, h3⟩
      · rintro ⟨⟨_, h2⟩, h1, h3⟩; exact ⟨h1, h2, h3⟩
    · simp only [hc, if_false]
      constructor
      · intro h
        exfalso
        have hlen := congrArg List.length h
        have hle := length_le_stringsToLower t
        simp only [runeErrorBytes, List.length_append, List.length_cons, List.length_nil] at hlen
        omega
      · rintro ⟨h1, _⟩
        exact absurd (h1 c (by simp)) hc

theorem checkNonTerminal_true_iff (seq : Str) :
    checkNonTerminal seq = true ↔ (hasUpper seq ∨ ¬ isAscii seq) := by
  unfold checkNonTerminal
  rw [bne_iff_ne, ne_eq, stringsToLower_eq_self_iff]
  constructor
  · intro h
    by_cases ha : isAscii seq
    · left
      by_contra hu
      exact h ⟨ha, hu⟩
    · right; exact ha
  · rintro (h | h) ⟨ha, hu⟩
    · exact hu h
    · exact h ha

theorem checkNonTerminal_of_hasUpper (seq : Str) (h : hasUpper seq) :
    checkNonTerminal seq = true :=
  (checkNonTerminal_true_iff seq).2 (Or.inl h)

theorem checkNonTerminal_iff (seq : Str) (ha : isAscii seq) :
    checkNonTerminal seq = true ↔ hasUpper seq := by
  rw [checkNonTerminal_true_iff]
  constructor
  · rintro (h | h)
    · exact h
    · exact absurd ha h
  · exact Or.inl

theorem checkNonTerminal_eq_false (seq : Str) (ha : isAscii seq) (hu : ¬ hasUpper seq) :
    checkNonTerminal seq = false := by
  cases h : checkNonTerminal seq with
  | false => rfl
  | true => exact absurd ((checkNonTerminal_iff seq ha).1 h) hu

theorem bounds_check_iff (cfg : Config) (w : Str) :
    (!checkMaxLen cfg w || !checkMinLen cfg w) = false ↔ withinBounds cfg w := by
  unfold checkMaxLen checkMinLen withinBounds
  by_cases h1 : cfg.maxLength = -1 <;> by_cases h2 : cfg.minLength = -1 <;> simp [h1, h2]

theorem forwardOut_terminal (cfg : Config) (trs : List Transition) (d : Nat) (s : Str)
    (path : List Str) (hnt : checkNonTerminal s = false) :
    forwardOut cfg trs d s path = if withinBounds cfg s then [(s, path)] else [] := by
  by_cases hb : withinBounds cfg s
  · have hb' := (bounds_check_iff cfg s).2 hb
    cases d <;> simp [forwardOut, hnt, hb, hb']
  · have hb' : (!checkMaxLen cfg s || !checkMinLen cfg s) = true := by
      rw [← bounds_check_iff] at hb
      simpa only [Bool.not_eq_false] using hb
    cases d <;> simp [forwardOut, hnt, hb, hb']

theorem forwardOut_zero_nonterminal (cfg : Config) (trs : List Transition) (s : Str)
    (path : List Str) (hnt : checkNonTerminal s = true) : forwardOut cfg trs 0 s path = [] := by
  simp [forwardOut, hnt]

theorem forwardOut_succ_nonterminal (cfg : Config) (trs : List Transition) (d : Nat) (s : Str)
    (path : List Str) (hnt : checkNonTerminal s = true) :
    forwardOut cfg trs (d + 1) s path =
      trs.flatMap (fun tr =>
        (occurrences s tr.from_).flatMap (fun i =>
          forwardOut cfg trs d (replaceFrom s tr.from_ tr.to_ i)
            (path ++ [sprintfStep (addBrackets s i (i + tr.from_.length)) tr.to_]))) := by
  simp [forwardOut, hnt]

theorem derivesWithin_terminal (trs : List Transition) (d : Nat) (s w : Str)
    (h : ¬ hasUpper s) : derivesWithin trs d s w ↔ w = s := by
  constructor
  · rintro ⟨k, c, _, h0, hk, hstep⟩
    cases k with
    | zero => rw [← hk, h0]
    | succ k => exact absurd (h0 ▸ (hstep 0 (by omega)).2) h
  · rintro rfl
    exact ⟨0, fun _ => w, by omega, rfl, rfl, fun i hi => by omega⟩

theorem derivesWithin_zero (trs : List Transition) (s w : Str) :
    derivesWithin trs 0 s w ↔ w = s := by
  constructor
  · rintro ⟨k, c, hk0, h0, hk, _⟩
    have : k = 0 := by omega
    subst this
    rw [← hk, h0]
  · rintro rfl
    exact ⟨0, fun _ => w, by omega, rfl, rfl, fun i hi => by omega⟩

theorem derivesWithin_succ (trs : List Transition) (d : Nat) (s w : Str)
    (hs : hasUpper s) (hw : ¬ hasUpper w) :
    derivesWithin trs (d + 1) s w ↔ ∃ s', rewritesTo trs s s' ∧ derivesWithin trs d s' w := by
  constructor
  · rintro ⟨k, c, hkd, h0, hk, hstep⟩
    cases k with
    | zero => exact absurd (by rw [← hk, h0]; exact hs) hw
    | succ k =>
      refine ⟨c 1, h0 ▸ (hstep 0 (by omega)).1, k, fun n => c (n + 1), by omega, rfl, hk, ?_⟩
      intro i hi
      exact hstep (i + 1) (by omega)
  · rintro ⟨s', hrw, k, c, hkd, h0, hk, hstep⟩
    refine ⟨k + 1, fun n => if n = 0 then s else c (n - 1), by omega, by simp, by simpa using hk, ?_⟩
    intro i hi
    cases i with
    | zero => simpa [h0] using And.intro hrw hs
    | succ i => simpa using hstep i (by omega)

theorem isAscii_rewriteAt (s : Str) (tr : Transition) (i : Nat) (hs : isAscii s)
    (htr : isAscii tr.to_) : isAscii (rewriteAt s tr i) := by
  intro c hc
  unfold rewriteAt at hc
  rcases List.mem_append.1 hc with h | h
  · rcases List.mem_append.1 h with h' | h'
    · exact hs c (List.mem_of_mem_take h')
    · exact htr c h'
  · exact hs c (List.mem_of_mem_drop h)

theorem mem_forwardOut_iff (cfg : Config) (trs : List Transition)
    (hrules : ∀ tr ∈ trs, isAscii tr.to_) :
    ∀ (d : Nat) (s : Str) (path : List Str) (w : Str), isAscii s →
      (w ∈ (forwardOut cfg trs d s path).map Prod.fst ↔
        (¬ hasUpper w ∧ withinBounds cfg w ∧ derivesWithin trs d s w)) := by
  intro d
  induction d with
  | zero =>
    intro s path w hsa
    by_cases hs : hasUpper s
    · rw [forwardOut_zero_nonterminal cfg trs s path (checkNonTerminal_of_hasUpper s hs),
        derivesWithin_zero]
      simp only [List.map_nil, List.not_mem_nil, false_iff]
      rintro ⟨h1, _, rfl⟩
      exact h1 hs
    · rw [forwardOut_terminal cfg trs 0 s path (checkNonTerminal_eq_false s hsa hs),
        derivesWithin_zero]
      by_cases hb : withinBounds cfg s
      · simp only [hb, if_true, List.map_cons, List.map_nil, List.mem_singleton]
        constructor
        · rintro rfl; exact ⟨hs, hb, rfl⟩
        · rintro ⟨_, _, h⟩; exact h
      · simp only [hb, if_false, List.map_nil, List.not_mem_nil, false_iff]
        rintro ⟨_, h2, rfl⟩
        exact hb h2
  | succ d ih =>
    intro s path w hsa
    by_cases hs : hasUpper s
    · rw [forwardOut_succ_nonterminal cfg trs d s path (checkNonTerminal_of_hasUpper s hs)]
      have hchild : ∀ tr ∈ trs, ∀ i, occursAt s tr.from_ i →
          replaceFrom s tr.from_ tr.to_ i = rewriteAt s tr i ∧ isAscii (rewriteAt s tr i) :=
        fun tr htr i hocc => ⟨replaceFrom_occursAt s tr.from_ tr.to_ i hocc,
          isAscii_rewriteAt s tr i hsa (hrules tr htr)⟩
      by_cases hw : hasUpper w
      · constructor
        · intro hmem
          exfalso
          simp only [List.map_flatMap, List.mem_flatMap] at hmem
          obtain ⟨tr, htr, i, hi, hin⟩ := hmem
          obtain ⟨e, ha⟩ := hchild tr htr i ((mem_occurrences s tr.from_ i).1 hi)
          rw [e] at hin
          exact ((ih _ _ _ ha).1 hin).1 hw
        · rintro ⟨h, _⟩; exact absurd hw h
      · rw [derivesWithin_succ trs d s w hs hw]
        simp only [List.map_flatMap, List.mem_flatMap]
        constructor
        · rintro ⟨tr, htr, i, hi, hin⟩
          have hocc := (mem_occurrences s tr.from_ i).1 hi
          obtain ⟨e, ha⟩ := hchild tr htr i hocc
          rw [e] at hin
          obtain ⟨h1, h2, h3⟩ := (ih _ _ _ ha).1 hin
          exact ⟨h1, h2, _, ⟨tr, htr, i, hocc, rfl⟩, h3⟩
        · rintro ⟨h1, h2, s', ⟨tr, htr, i, hocc, rfl⟩, h3⟩
          refine ⟨tr, htr, i, (mem_occurrences s tr.from_ i).2 hocc, ?_⟩
          obtain ⟨e, ha⟩ := hchild tr htr i hocc
          rw [e]
          exact (ih _ _ _ ha).2 ⟨h1, h2, h3⟩
    · rw [forwardOut_terminal cfg trs (d + 1) s path (checkNonTerminal_eq_false s hsa hs),
        derivesWithin_terminal trs (d + 1) s w hs]
      by_cases hb : withinBounds cfg s
      · simp only [hb, if_true, List.map_cons, List.map_nil, List.mem_singleton]
        constructor
        · rintro rfl; exact ⟨hs, hb, rfl⟩
        · rintro ⟨_, _, h⟩; exact h
      · simp only [hb, if_false, List.map_nil, List.not_mem_nil, false_iff]
        rintro ⟨_, h2, rfl⟩
        exact hb h2

theorem chain_of_mem_forwardOut (cfg : Config) (trs : List Transition) :
    ∀ (d : Nat) (s : Str) (path : List Str) (w : Str),
      w ∈ (forwardOut cfg trs d s path).map Prod.fst →
        ∃ (k : Nat) (c : Nat → Str), k ≤ d ∧ c 0 = s ∧ c k = w ∧
          ∀ i, i < k → rewritesTo trs (c i) (c (i + 1)) := by
  intro d
  induction d with
  | zero =>
    intro s path w hmem
    refine ⟨0, fun _ => s, le_refl _, rfl, ?_, fun i hi => by omega⟩
    cases hnt : checkNonTerminal s with
    | true => rw [forwardOut_zero_nonterminal cfg trs s path hnt] at hmem; simp at hmem
    | false =>
      rw [forwardOut_terminal cfg trs 0 s path hnt] at hmem
      by_cases hb : withinBounds cfg s
      · simp only [hb, if_true, List.map_cons, List.map_nil, List.mem_singleton] at hmem
        exact hmem.symm
      · simp [hb] at hmem
  | succ d ih =>
    intro s path w hmem
    cases hnt : checkNonTerminal s with
    | true =>
      rw [forwardOut_succ_nonterminal cfg trs d s path hnt] at hmem
      simp only [List.map_flatMap, List.mem_flatMap] at hmem
      obtain ⟨tr, htr, i, hi, hin⟩ := hmem
      have hocc := (mem_occurrences s tr.from_ i).1 hi
      rw [replaceFrom_occursAt s tr.from_ tr.to_ i hocc] at hin
      obtain ⟨k, c, hk, h0, hkw, hstep⟩ := ih _ _ _ hin
      refine ⟨k + 1, fun n => if n = 0 then s else c (n - 1), by omega, by simp,
        by simpa using hkw, ?_⟩
      intro j hj
      cases j with
      | zero =>
        simp only [if_true, Nat.zero_add, one_ne_zero, if_false, Nat.sub_self, h0]
        exact ⟨tr, htr, i, hocc, rfl⟩
      | succ j => simpa using hstep j (by omega)
    | false =>
      refine ⟨0, fun _ => s, Nat.zero_le _, rfl, ?_, fun i hi => by omega⟩
      rw [forwardOut_terminal cfg trs (d + 1) s path hnt] at hmem
      by_cases hb : withinBounds cfg s
      · simp only [hb, if_true, List.map_cons, List.map_nil, List.mem_singleton] at hmem
        exact hmem.symm
      · simp [hb] at hmem

theorem scanLoop_map {α β : Type} (f : List α → List β) (hnil : f [] = [])
    (happ : ∀ a b, f (a ++ b) = f a ++ f b) (body : Nat → Option (List α)) (s sub : Str) :
    ∀ (fuel frm : Nat), scanLoop (fun i => (body i).map f) s sub fuel frm =
      (scanLoop body s sub fuel frm).map f := by
  intro fuel
  induction fuel with
  | zero => intro frm; rfl
  | succ fuel ih =>
    intro frm
    unfold scanLoop
    by_cases h : stringIndexFrom s sub frm = -1
    · simp [h, hnil]
    · simp only [h, if_false]
      rw [ih]
      cases body (stringIndexFrom s sub frm).toNat with
      | none => rfl
      | some out =>
        cases scanLoop body s sub fuel ((stringIndexFrom s sub frm).toNat + 1) with
        | none => rfl
        | some rest => simp [happ]

theorem forTransitions_map {α β : Type} (f : List α → List β) (hnil : f [] = [])
    (happ : ∀ a b, f (a ++ b) = f a ++ f b) (body : Transition → Option (List α)) :
    ∀ (trs : List Transition), forTransitions (fun tr => (body tr).map f) trs =
      (forTransitions body trs).map f := by
  intro trs
  induction trs with
  | nil => simp [forTransitions, hnil]
  | cons tr rest ih =>
    unfold forTransitions
    rw [ih]
    cases body tr with
    | none => rfl
    | some out =>
      cases forTransitions body rest with
      | none => rfl
      | some more => simp [happ]

theorem findSequences_filter (cfg : Config) (trs : List Transition) :
    ∀ (fuel : Nat) (s : Str) (depth : Int) (path : List Str),
      findSequences cfg trs fuel s depth path =
        (findSequences (unbounded cfg) trs fuel s depth path).map
          (List.filter (fun r => decide (withinBounds cfg r.1))) := by
  intro fuel
  induction fuel with
  | zero => intro s depth path; rfl
  | succ fuel ih =>
    intro s depth path
    unfold findSequences
    by_cases hnt : checkNonTerminal s
    · by_cases hd : depth = 0
      · simp [hnt, hd]
      · simp only [hnt, Bool.not_true, Bool.false_eq_true, if_false, hd]
        rw [← forTransitions_map _ (by simp) (by simp)]
        congr 1
        funext tr
        rw [← scanLoop_map _ (by simp) (by simp)]
        congr 1
        funext last
        exact ih _ _ _
    · have hu : (!checkMaxLen (unbounded cfg) s || !checkMinLen (unbounded cfg) s) = false := by
        simp [checkMaxLen, checkMinLen, unbounded]
      by_cases hb : withinBounds cfg s
      · have hb' := (bounds_check_iff cfg s).2 hb
        simp [hnt, hu, hb, hb']
      · have hb' : (!checkMaxLen cfg s || !checkMinLen cfg s) = true := by
          rw [← bounds_check_iff] at hb
          simpa only [Bool.not_eq_false] using hb
        simp [hnt, hu, hb, hb']

theorem occurrences_pairwise (s sub : Str) : (occurrences s sub).Pairwise (· < ·) := by
  unfold occurrences
  exact List.Pairwise.filter _ (List.pairwise_lt_range _)

/-- C1 (as stated, refuted): with rules `[S -> aSb, S -> ""]`, start `"S"`, depth 3 and
no length bounds the complete run emits `aabb`, `ab` and the empty sequence, so the
emitted set is not `{"", "ab", "aabb", "aaabbb"}`. -/
theorem findSequences_anbn_depth3_counterexample :
    (findSequences cfgDepth3 grammarAnBn 21 "S".toList 3 []).map (List.map Prod.fst) =
        some ["aabb".toList, "ab".toList, []] ∧
      ¬ (∀ w : Str, w ∈ ["aabb".toList, "ab".toList, []] ↔
          w ∈ ["".toList, "ab".toList, "aabb".toList, "aaabbb".toList]) := by
  refine ⟨by decide, fun h => ?_⟩
  exact absurd ((h "aaabbb".toList).2 (by decide)) (by decide)

/-- C1 (amended): with rules `[S -> aSb, S -> ""]`, start `"S"` and no length bounds,
depth 3 emits exactly `aabb`, `ab`, `""` (in this order); `aaabbb` takes four rewrites
and is emitted from depth 4 on. -/
theorem findSequences_anbn_depth3 (cfg : Config) (hmax : cfg.maxLength = -1)
    (hmin : cfg.minLength = -1) (fuel : Nat) (hfuel : 27 ≤ fuel) :
    (findSequences cfg grammarAnBn fuel "S".toList 3 []).map (List.map Prod.fst) =
        some ["aabb".toList, "ab".toList, []] ∧
      (findSequences cfg grammarAnBn fuel "S".toList 4 []).map (List.map Prod.fst) =
        some ["aaabbb".toList, "aabb".toList, "ab".toList, []] := by
  have hpat : ∀ tr ∈ grammarAnBn, tr.from_ ≠ [] := by decide
  have h3 := findSequences_eq_forwardOut cfg grammarAnBn hpat 3 fuel "S".toList []
    (le_trans (by decide) hfuel)
  have h4 := findSequences_eq_forwardOut cfg grammarAnBn hpat 4 fuel "S".toList []
    (le_trans (by decide) hfuel)
  obtain ⟨inp, md, maxL, minL, v⟩ := cfg
  simp only at hmax hmin
  subst hmax hmin
  constructor
  · rw [show ((3 : Int) = ((3 : Nat) : Int)) from rfl, h3]; rfl
  · rw [show ((4 : Int) = ((4 : Nat) : Int)) from rfl, h4]; rfl

theorem findSequences_anbn_depth3_witness :
    cfgDepth3.maxLength = -1 ∧ cfgDepth3.minLength = -1 ∧ 27 ≤ 27 ∧
      (findSequences cfgDepth3 grammarAnBn 27 "S".toList 3 []).map (List.map Prod.fst) =
        some ["aabb".toList, "ab".toList, []] :=
  ⟨rfl, rfl, le_refl _, (findSequences_anbn_depth3 cfgDepth3 rfl rfl 27 (le_refl _)).1⟩

/-- C3: the length bounds act only at terminal sequences.  At every fuel, for every
rule set, sequence, depth and path, the run under the bounds of `cfg` is the run with
both bounds unset, filtered to the results whose length lies within the bounds; for
non-empty patterns and a depth `d ≥ 0` the unbounded run returns with enough fuel; and
rules `[S -> aAA, A -> ""]`, start `"S"`, depth 3, `maxLength = 1` emit `"a"` although
the intermediate `aAA` is longer than the bound. -/
theorem findSequences_bounds_filter (cfg : Config) (trs : List Transition) (fuel : Nat)
    (s : Str) (depth : Int) (path : List Str) :
    findSequences cfg trs fuel s depth path =
        (findSequences (unbounded cfg) trs fuel s depth path).map
          (List.filter (fun r => decide (withinBounds cfg r.1))) ∧
      ((∀ tr ∈ trs, tr.from_ ≠ []) → ∀ d : Nat, depth = (d : Int) → fuelBound trs s d ≤ fuel →
        ∃ out, findSequences (unbounded cfg) trs fuel s depth path = some out) ∧
      (findSequences ⟨"S".toList, 3, 1, -1, false⟩ grammarShrink 21 "S".toList 3 []).map
        (List.map Prod.fst) = some ["a".toList, "a".toList] := by
  refine ⟨findSequences_filter cfg trs fuel s depth path, ?_, by decide⟩
  intro hpat d hd hfuel
  subst hd
  exact ⟨_, findSequences_eq_forwardOut (unbounded cfg) trs hpat d fuel s path hfuel⟩

theorem findSequences_bounds_filter_witness :
    ∃ out, findSequences (unbounded ⟨"S".toList, 3, 1, -1, false⟩) grammarShrink 21
        "S".toList 3 [] = some out ∧
      findSequences ⟨"S".toList, 3, 1, -1, false⟩ grammarShrink 21 "S".toList 3 [] =
        some (out.filter (fun r => decide (withinBounds ⟨"S".toList, 3, 1, -1, false⟩ r.1))) := by
  have h := findSequences_bounds_filter ⟨"S".toList, 3, 1, -1, false⟩ grammarShrink 21
    "S".toList 3 []
  obtain ⟨out, hout⟩ := h.2.1 (by decide) 3 rfl (by decide)
  exact ⟨out, hout, by rw [h.1, hout]; rfl⟩

/-- C4: for an offset `frm` with `0 ≤ frm ≤ len(s)`, `stringIndexFrom(s, sub, frm)`
returns the smallest index `i ≥ frm` with `s[i : i+len(sub)] == sub`, and returns `-1`
exactly when there is no such index. -/
theorem stringIndexFrom_smallest (s sub : Str) (frm : Nat) (h : frm ≤ s.length) :
    (∀ i : Nat, stringIndexFrom s sub frm = (i : Int) ↔
        (frm ≤ i ∧ occursAt s sub i ∧ ∀ j, frm ≤ j → j < i → ¬ occursAt s sub j)) ∧
      (stringIndexFrom s sub frm = -1 ↔ ¬ ∃ i, frm ≤ i ∧ occursAt s sub i) ∧
      (stringIndexFrom s sub frm = -1 ∨ ∃ i : Nat, stringIndexFrom s sub frm = (i : Int)) := by
  refine ⟨stringIndexFrom_eq_nat s sub frm h, ?_, stringIndexFrom_cases s sub frm⟩
  rw [stringIndexFrom_eq_neg_one s sub frm h]
  constructor
  · rintro h1 ⟨i, hi, hocc⟩; exact h1 i hi hocc
  · intro h1 i hi hocc; exact h1 ⟨i, hi, hocc⟩

theorem stringIndexFrom_smallest_witness :
    1 ≤ "aaa".toList.length ∧ stringIndexFrom "aaa".toList "aa".toList 1 = 1 ∧
      stringIndexFrom "aaa".toList "aa".toList 2 = -1 :=
  ⟨by decide,
    ((stringIndexFrom_smallest "aaa".toList "aa".toList 1 (by decide)).1 1).2
      ⟨le_refl _, by decide, fun j h1 h2 => by omega⟩,
    by decide⟩

/-- C5: for a non-empty pattern `p` the scan loop (start at offset 0, resume one past
the start of each match, stop at not-found) runs its body at exactly the indices `i`
with `s[i : i+len(p)] == p`, each once, in ascending order, overlapping occurrences
included; `"aa"` in `"aaa"` and `"A"` in `"AA"` both give `[0, 1]`. -/
theorem scanLoop_visits_occurrences {α : Type} (g : Nat → List α) (s p : Str) (hp : p ≠ [])
    (fuel : Nat) (hfuel : s.length + 1 ≤ fuel) :
    scanLoop (fun i => some (g i)) s p fuel 0 = some ((occurrences s p).flatMap g) ∧
      scanLoop (fun i => some [i]) s p fuel 0 = some (occurrences s p) ∧
      (∀ i, i ∈ occurrences s p ↔ occursAt s p i) ∧
      (occurrences s p).Pairwise (· < ·) ∧
      scanLoop (fun i => some [i]) "aaa".toList "aa".toList 4 0 = some [0, 1] ∧
      scanLoop (fun i => some [i]) "AA".toList "A".toList 3 0 = some [0, 1] := by
  refine ⟨?_, ?_, mem_occurrences s p, occurrences_pairwise s p, by decide, by decide⟩
  · rw [occurrences_eq_occFrom]
    exact scanLoop_eq _ g s p hp fuel 0 (Nat.zero_le _) (by omega) (fun _ _ => rfl)
  · rw [occurrences_eq_occFrom]
    have := scanLoop_eq (fun i => some [i]) (fun i => [i]) s p hp fuel 0 (Nat.zero_le _)
      (by omega) (fun _ _ => rfl)
    rw [this]
    congr 1
    induction occFrom s p 0 with
    | nil => rfl
    | cons a l ih => simp [List.flatMap_cons, ih]

theorem scanLoop_visits_occurrences_witness :
    "abab".toList.length + 1 ≤ 5 ∧ "ab".toList ≠ [] ∧
      scanLoop (fun i => some [i]) "abab".toList "ab".toList 5 0 =
        some (occurrences "abab".toList "ab".toList) :=
  ⟨by decide, by decide,
    (scanLoop_visits_occurrences (fun i => [i]) "abab".toList "ab".toList (by decide) 5
      (by decide)).2.1⟩

/-- C6: when `old` occurs in `s` at index `i`, `replaceFrom(s, old, new, i)` is
`s[:i] + new + s[i+len(old):]`: only the occurrence at `i` is replaced, the text before
the offset and after the matched span is unchanged. -/
theorem replaceFrom_at_occurrence (s old new : Str) (i : Nat) (h : occursAt s old i) :
    replaceFrom s old new i = s.take i ++ new ++ s.drop (i + old.length) :=
  replaceFrom_occursAt s old new i h

theorem replaceFrom_at_occurrence_witness :
    occursAt "abcabcab".toList "ab".toList 3 ∧
      replaceFrom "abcabcab".toList "ab".toList "X".toList 3 = "abcXcab".toList :=
  ⟨by decide,
    (replaceFrom_at_occurrence "abcabcab".toList "ab".toList "X".toList 3 (by decide)).trans
      (by decide)⟩

/-- C7: for every rule set and every start sequence containing an uppercase letter,
`findSequences` with depth 0 returns without emitting a result. -/
theorem findSequences_depth_zero (cfg : Config) (trs : List Transition) (s : Str)
    (path : List Str) (fuel : Nat) (hs : hasUpper s) :
    findSequences cfg trs (fuel + 1) s 0 path = some [] := by
  have hnt := checkNonTerminal_of_hasUpper s hs
  simp [findSequences, hnt]

theorem findSequences_depth_zero_witness :
    hasUpper "aSb".toList ∧
      findSequences cfgDepth3 grammarAnBn (0 + 1) "aSb".toList 0 [] = some [] :=
  ⟨⟨'S', by decide, by decide⟩,
    findSequences_depth_zero cfgDepth3 grammarAnBn "aSb".toList [] 0 ⟨'S', by decide, by decide⟩⟩

/-- C8: for non-empty patterns, a sequence `s` with an uppercase letter and a depth
`d ≥ 1`, the result stream of `findSequences(s, d)` is the concatenation, over the rules
in rule-set order and within a rule over the occurrence offsets of its pattern in `s`
in ascending order, of the result streams of `findSequences` on `s` rewritten at that
offset with depth `d - 1` (and the path extended by the rendered step). -/
theorem findSequences_stream_order (cfg : Config) (trs : List Transition)
    (hpat : ∀ tr ∈ trs, tr.from_ ≠ []) (s : Str) (hs : hasUpper s) (d : Nat) (hd : 1 ≤ d)
    (path : List Str) (fuel : Nat) (hfuel : fuelBound trs s d ≤ fuel) :
    ∃ childOut : Transition → Nat → List Result,
      (∀ tr ∈ trs, ∀ i, occursAt s tr.from_ i → ∀ fuel', fuelBound trs (rewriteAt s tr i) (d - 1) ≤ fuel' →
        findSequences cfg trs fuel' (rewriteAt s tr i) ((d : Int) - 1)
          (path ++ [sprintfStep (addBrackets s i (i + tr.from_.length)) tr.to_]) =
            some (childOut tr i)) ∧
      findSequences cfg trs fuel s (d : Int) path =
        some (trs.flatMap (fun tr => (occurrences s tr.from_).flatMap (childOut tr))) ∧
      ∀ tr : Transition, (occurrences s tr.from_).Pairwise (· < ·) ∧
        ∀ i, i ∈ occurrences s tr.from_ ↔ occursAt s tr.from_ i := by
  obtain ⟨d, rfl⟩ : ∃ d', d = d' + 1 := ⟨d - 1, by omega⟩
  refine ⟨fun tr i => forwardOut cfg trs d (replaceFrom s tr.from_ tr.to_ i)
      (path ++ [sprintfStep (addBrackets s i (i + tr.from_.length)) tr.to_]), ?_, ?_, ?_⟩
  · intro tr _ i hocc fuel' hfuel'
    have hd1 : ((d + 1 : Nat) : Int) - 1 = (d : Int) := by omega
    have hrw : replaceFrom s tr.from_ tr.to_ i = rewriteAt s tr i :=
      replaceFrom_occursAt s tr.from_ tr.to_ i hocc
    simp only [hd1, hrw]
    exact findSequences_eq_forwardOut cfg trs hpat d fuel' _ _ hfuel'
  · rw [findSequences_eq_forwardOut cfg trs hpat (d + 1) fuel s path hfuel,
      forwardOut_succ_nonterminal cfg trs d s path (checkNonTerminal_of_hasUpper s hs)]
  · intro tr
    exact ⟨occurrences_pairwise s tr.from_, mem_occurrences s tr.from_⟩

theorem findSequences_stream_order_witness :
    (∀ tr ∈ grammarAnBn, tr.from_ ≠ []) ∧ hasUpper "S".toList ∧ 1 ≤ 3 ∧
      fuelBound grammarAnBn "S".toList 3 ≤ 21 ∧
      ∃ childOut : Transition → Nat → List Result,
        (∀ tr ∈ grammarAnBn, ∀ i, occursAt "S".toList tr.from_ i → ∀ fuel',
          fuelBound grammarAnBn (rewriteAt "S".toList tr i) (3 - 1) ≤ fuel' →
          findSequences cfgDepth3 grammarAnBn fuel' (rewriteAt "S".toList tr i)
            (((3 : Nat) : Int) - 1)
            ([] ++ [sprintfStep (addBrackets "S".toList i (i + tr.from_.length)) tr.to_]) =
              some (childOut tr i)) ∧
        findSequences cfgDepth3 grammarAnBn 21 "S".toList ((3 : Nat) : Int) [] =
          some (grammarAnBn.flatMap
            (fun tr => (occurrences "S".toList tr.from_).flatMap (childOut tr))) ∧
        ∀ tr : Transition, (occurrences "S".toList tr.from_).Pairwise (· < ·) ∧
          ∀ i, i ∈ occurrences "S".toList tr.from_ ↔ occursAt "S".toList tr.from_ i :=
  ⟨by decide, ⟨'S', by decide, by decide⟩, by decide, by decide,
    findSequences_stream_order cfgDepth3 grammarAnBn (by decide) "S".toList
      ⟨'S', by decide, by decide⟩ 3 (by decide) [] 21 (by decide)⟩

theorem stringIndexFrom_clamp (s sub : Str) (frm : Nat) :
    stringIndexFrom s sub frm = stringIndexFrom s sub (min frm s.length) := by
  by_cases h : frm > s.length
  · have h3 : min frm s.length = s.length := by omega
    rw [h3]
    unfold stringIndexFrom
    simp [h]
  · have h3 : min frm s.length = frm := by omega
    rw [h3]

theorem stringIndexFrom_occursAt (s sub : Str) (frm i : Nat)
    (h : stringIndexFrom s sub frm = (i : Int)) : occursAt s sub i := by
  rw [stringIndexFrom_clamp] at h
  exact ((stringIndexFrom_eq_nat s sub _ (Nat.min_le_right _ _) i).1 h).2.1

theorem scanLoop_mem {α : Type} (body : Nat → Option (List α)) (s sub : Str) :
    ∀ (fuel frm : Nat) (out : List α), scanLoop body s sub fuel frm = some out →
      ∀ r ∈ out, ∃ i, occursAt s sub i ∧ ∃ o, body i = some o ∧ r ∈ o := by
  intro fuel
  induction fuel with
  | zero => intro frm out h; simp [scanLoop] at h
  | succ fuel ih =>
    intro frm out h r hr
    unfold scanLoop at h
    rcases stringIndexFrom_cases s sub frm with hnf | ⟨i, hi⟩
    · simp only [hnf, if_true, Option.some.injEq] at h
      subst h
      simp at hr
    · have hne : ¬ ((i : Int) = -1) := by omega
      simp only [hi, hne, if_false, Int.toNat_ofNat] at h
      cases hb : body i with
      | none => simp [hb] at h
      | some o =>
        cases hrest : scanLoop body s sub fuel (i + 1) with
        | none => simp [hb, hrest] at h
        | some rest =>
          simp only [hb, hrest, Option.some.injEq] at h
          subst h
          rcases List.mem_append.1 hr with h1 | h1
          · exact ⟨i, stringIndexFrom_occursAt s sub frm i hi, o, hb, h1⟩
          · exact ih (i + 1) rest hrest r h1

theorem forTransitions_mem {α : Type} (body : Transition → Option (List α)) :
    ∀ (trs : List Transition) (out : List α), forTransitions body trs = some out →
      ∀ r ∈ out, ∃ tr ∈ trs, ∃ o, body tr = some o ∧ r ∈ o := by
  intro trs
  induction trs with
  | nil => intro out h r hr; simp [forTransitions] at h; subst h; simp at hr
  | cons tr rest ih =>
    intro out h r hr
    unfold forTransitions at h
    cases hb : body tr with
    | none => simp [hb] at h
    | some o =>
      cases hrest : forTransitions body rest with
      | none => simp [hb, hrest] at h
      | some more =>
        simp only [hb, hrest, Option.some.injEq] at h
        subst h
        rcases List.mem_append.1 hr with h1 | h1
        · exact ⟨tr, by simp, o, hb, h1⟩
        · obtain ⟨tr', htr', o', ho', hr'⟩ := ih more hrest r h1
          exact ⟨tr', by simp [htr'], o', ho', hr'⟩

theorem replaceFrom_eq_unrewriteAt (s : Str) (tr : Transition) (i : Nat)
    (h : occursAt s tr.to_ i) : replaceFrom s tr.to_ tr.from_ i = unrewriteAt s tr i :=
  replaceFrom_occursAt s tr.to_ tr.from_ i h

theorem occursAt_unrewriteAt (s : Str) (tr : Transition) (i : Nat) (h : occursAt s tr.to_ i) :
    occursAt (unrewriteAt s tr i) tr.from_ i := by
  have hi : i ≤ s.length := by have := h.1; omega
  rw [occursAt_iff_starts]
  unfold unrewriteAt
  constructor
  · simp only [List.length_append, List.length_take]; omega
  · have hlen : (s.take i).length = i := by simp [List.length_take, hi]
    rw [List.append_assoc, List.drop_append_eq_append_drop, hlen]
    simp [List.drop_eq_nil_of_le, hlen]

theorem rewriteAt_unrewriteAt (s : Str) (tr : Transition) (i : Nat) (h : occursAt s tr.to_ i) :
    rewriteAt (unrewriteAt s tr i) tr i = s := by
  have hi : i ≤ s.length := by have := h.1; omega
  have hlen : (s.take i).length = i := by simp [List.length_take, hi]
  have hp := ((occursAt_iff_starts s tr.to_ i).1 h).2
  obtain ⟨rest, hrest⟩ := hp
  have hdrop : s.drop (i + tr.to_.length) = rest := by
    rw [← List.drop_drop, ← hrest]
    simp
  unfold rewriteAt unrewriteAt
  have h1 : List.take i (List.take i s ++ tr.from_ ++ List.drop (i + tr.to_.length) s)
      = List.take i s := by
    rw [List.append_assoc, List.take_append_eq_append_take, hlen]
    simp
  have h2 : List.drop (i + tr.from_.length)
      (List.take i s ++ tr.from_ ++ List.drop (i + tr.to_.length) s)
      = List.drop (i + tr.to_.length) s := by
    rw [List.append_assoc, List.drop_append_eq_append_drop, hlen]
    rw [List.drop_eq_nil_of_le (by simp [hlen])]
    simp
  rw [h1, h2, hdrop, List.append_assoc, hrest]
  exact List.take_append_drop i s

theorem checkStart_eq_false_iff (s : Str) : checkStart s = false ↔ s = "S".toList := by
  unfold checkStart; simp

theorem findPath_eq_backwardOut (cfg : Config) (trs : List Transition)
    (hrep : ∀ tr ∈ trs, tr.to_ ≠ []) :
    ∀ (d fuel : Nat) (s : Str) (path : List Str), fuelBound trs s d ≤ fuel →
      findPath cfg trs fuel s (d : Int) path = some (backwardOut cfg trs d s path) := by
  intro d
  induction d with
  | zero =>
    intro fuel s path hf
    cases fuel with
    | zero => unfold fuelBound at hf; omega
    | succ f =>
      unfold findPath backwardOut
      by_cases hst : checkStart s <;> simp [hst]
  | succ d ih =>
    intro fuel s path hf
    cases fuel with
    | zero => unfold fuelBound at hf; omega
    | succ f =>
      unfold findPath backwardOut
      by_cases hst : checkStart s
      · have hd : ¬ (((d + 1 : Nat) : Int) = 0) := by omega
        have hd1 : intPred ((d + 1 : Nat) : Int) = (d : Int) := intPred_natCast_succ d
        simp only [hst, Bool.not_true, Bool.false_eq_true, if_false, hd, hd1]
        apply forTransitions_eq
        intro tr htr
        rw [occurrences_eq_occFrom]
        apply scanLoop_eq _ _ s tr.to_ (hrep tr htr) f 0 (Nat.zero_le _)
        · unfold fuelBound at hf
          have : (d + 1) * (ruleWidth trs + 1) = d * (ruleWidth trs + 1) + (ruleWidth trs + 1) := by
            ring
          omega
        · intro i hi
          apply ih
          have hocc := ((mem_occFrom s tr.to_ 0 i).1 hi).2
          have hlen := length_replaceFrom_le s tr.to_ tr.from_ i hocc
          have hw := le_ruleWidth trs tr htr
          unfold fuelBound at hf ⊢
          have : (d + 1) * (ruleWidth trs + 1) = d * (ruleWidth trs + 1) + (ruleWidth trs + 1) := by
            ring
          omega
      · simp [hst]

theorem findPath_paths_derive (cfg : Config) (trs : List Transition) (t : Str) :
    ∀ (fuel : Nat) (s : Str) (depth : Int) (steps0 : List Step) (out : List Result),
      validDerivation trs s t steps0 →
      findPath cfg trs fuel s depth (steps0.map Step.render) = some out →
      ∀ r ∈ out, r.1 = cfg.inputSequence ∧
        ∃ steps : List Step, r.2 = steps.map Step.render ∧
          validDerivation trs "S".toList t steps := by
  intro fuel
  induction fuel with
  | zero => intro s depth steps0 out _ h; simp [findPath] at h
  | succ fuel ih =>
    intro s depth steps0 out hv h r hr
    unfold findPath at h
    by_cases hst : checkStart s
    · by_cases hd : depth = 0
      · simp [hst, hd] at h
        subst h
        simp at hr
      · simp only [hst, Bool.not_true, Bool.false_eq_true, if_false, hd] at h
        obtain ⟨tr, htr, o, ho, hro⟩ := forTransitions_mem _ trs out h r hr
        obtain ⟨i, hocc, o', ho', hro'⟩ := scanLoop_mem _ s tr.to_ fuel 0 o ho r hro
        simp only [replaceFrom_eq_unrewriteAt s tr i hocc] at ho'
        refine ih (unrewriteAt s tr i) (intPred depth) (⟨unrewriteAt s tr i, i, tr⟩ :: steps0) o' ?_
          ho' r hro'
        refine ⟨rfl, htr, occursAt_unrewriteAt s tr i hocc, ?_⟩
        rw [rewriteAt_unrewriteAt s tr i hocc]
        exact hv
    · have hs : s = "S".toList := (checkStart_eq_false_iff s).1 (by simpa using hst)
      simp only [hst, Bool.not_false, if_true, Option.some.injEq] at h
      subst h
      rw [List.mem_singleton] at hr
      subst hr
      exact ⟨rfl, steps0, rfl, hs ▸ hv⟩

/-- C9: every path emitted by `findPath`, started with an empty path on the target `t`,
is the rendering of a forward derivation from `"S"` to `t`: the source of the first
step is `"S"`, each step brackets an occurrence of its rule's pattern in its source,
rewriting that occurrence gives the source of the next step, and rewriting the last
gives `t`.  With non-empty replacements and a depth `d ≥ 0` the run returns when given
enough fuel.  Rules `[S -> aA, A -> b]`, target `"ab"`, depth 2 emit exactly one
result, with path `[('[S]'=>'aA'), ('a[A]'=>'b')]`. -/
theorem findPath_paths_valid (cfg : Config) (trs : List Transition) (t : Str) (depth : Int) :
    (∀ (fuel : Nat) (out : List Result), findPath cfg trs fuel t depth [] = some out →
        ∀ r ∈ out, r.1 = cfg.inputSequence ∧
          ∃ steps : List Step, r.2 = steps.map Step.render ∧
            validDerivation trs "S".toList t steps) ∧
      ((∀ tr ∈ trs, tr.to_ ≠ []) → ∀ d : Nat, depth = (d : Int) → ∀ fuel : Nat,
        fuelBound trs t d ≤ fuel → ∃ out, findPath cfg trs fuel t depth [] = some out) ∧
      findPath ⟨"ab".toList, 2, -1, -1, true⟩ grammarAB 16 "ab".toList 2 [] =
        some [("ab".toList, ["('[S]'=>'aA')".toList, "('a[A]'=>'b')".toList])] := by
  refine ⟨?_, ?_, by decide⟩
  · intro fuel out h r hr
    exact findPath_paths_derive cfg trs t fuel t depth [] out rfl h r hr
  · intro hrep d hd fuel hfuel
    subst hd
    exact ⟨_, findPath_eq_backwardOut cfg trs hrep d fuel t [] hfuel⟩

theorem findPath_paths_valid_witness :
    ∃ out, findPath ⟨"ab".toList, 2, -1, -1, true⟩ grammarAB 16 "ab".toList 2 [] = some out ∧
      ∀ r ∈ out, r.1 = "ab".toList ∧
        ∃ steps : List Step, r.2 = steps.map Step.render ∧
          validDerivation grammarAB "S".toList "ab".toList steps := by
  have h := findPath_paths_valid ⟨"ab".toList, 2, -1, -1, true⟩ grammarAB "ab".toList 2
  obtain ⟨out, hout⟩ := h.2.1 (by decide) 2 rfl 16 (by decide)
  exact ⟨out, hout, h.1 16 out hout⟩

theorem backwardOut_start (cfg : Config) (trs : List Transition) (d : Nat) (path : List Str) :
    backwardOut cfg trs d "S".toList path = [(cfg.inputSequence, path)] := by
  have h : checkStart ['S'] = false := by decide
  cases d <;> simp [backwardOut, h]

theorem backwardOut_zero (cfg : Config) (trs : List Transition) (s : Str) (path : List Str)
    (hs : s ≠ "S".toList) : backwardOut cfg trs 0 s path = [] := by
  have h : checkStart s = true := by
    cases hc : checkStart s with
    | true => rfl
    | false => exact absurd ((checkStart_eq_false_iff s).1 hc) hs
  simp [backwardOut, h]

theorem flatMap_congr_mem {α β : Type} (l : List α) (f g : α → List β)
    (h : ∀ x ∈ l, f x = g x) : l.flatMap f = l.flatMap g := by
  induction l with
  | nil => rfl
  | cons a l ih =>
    rw [List.flatMap_cons, List.flatMap_cons, h a (by simp), ih (fun x hx => h x (by simp [hx]))]

theorem backwardOut_succ (cfg : Config) (trs : List Transition) (d : Nat) (s : Str)
    (path : List Str) (hs : s ≠ "S".toList) :
    backwardOut cfg trs (d + 1) s path =
      trs.flatMap (fun tr =>
        (occurrences s tr.to_).flatMap (fun i =>
          backwardOut cfg trs d (unrewriteAt s tr i)
            (sprintfStep (addBrackets (unrewriteAt s tr i) i (i + tr.from_.length)) tr.to_
              :: path))) := by
  have h : checkStart s = true := by
    cases hc : checkStart s with
    | true => rfl
    | false => exact absurd ((checkStart_eq_false_iff s).1 hc) hs
  simp only [backwardOut, h, Bool.not_true, Bool.false_eq_true, if_false]
  apply flatMap_congr_mem
  intro tr _
  apply flatMap_congr_mem
  intro i hi
  rw [replaceFrom_eq_unrewriteAt s tr i ((mem_occurrences s tr.to_ i).1 hi)]

theorem length_flatMap_congr {α β γ : Type} (l : List α) (f : α → List β) (g : α → List γ)
    (h : ∀ x ∈ l, (f x).length = (g x).length) :
    (l.flatMap f).length = (l.flatMap g).length := by
  induction l with
  | nil => rfl
  | cons a l ih =>
    rw [List.flatMap_cons, List.flatMap_cons, List.length_append, List.length_append,
      h a (by simp), ih (fun x hx => h x (by simp [hx]))]

theorem length_flatMap_enumFrom {α β γ : Type} (f : α → List β) (g : Nat × α → List γ)
    (h : ∀ k x, (g (k, x)).length = (f x).length) :
    ∀ (l : List α) (n : Nat), ((List.enumFrom n l).flatMap g).length = (l.flatMap f).length := by
  intro l
  induction l with
  | nil => intro n; rfl
  | cons a l ih =>
    intro n
    rw [List.enumFrom_cons, List.flatMap_cons, List.flatMap_cons, List.length_append,
      List.length_append, h n a, ih (n + 1)]

theorem length_backwardOut (cfg : Config) (trs : List Transition) :
    ∀ (d : Nat) (s : Str) (path : List Str),
      (backwardOut cfg trs d s path).length = (choiceChains trs d s).length := by
  intro d
  induction d with
  | zero =>
    intro s path
    by_cases hs : s = "S".toList
    · subst hs; rw [backwardOut_start]; simp [choiceChains]
    · have hs' : ¬ s = ['S'] := hs
      rw [backwardOut_zero cfg trs s path hs]; simp [choiceChains, hs']
  | succ d ih =>
    intro s path
    by_cases hs : s = "S".toList
    · subst hs; rw [backwardOut_start]; simp [choiceChains]
    · rw [backwardOut_succ cfg trs d s path hs]
      have hs' : ¬ s = ['S'] := hs
      simp only [choiceChains, String.toList, hs', if_false]
      rw [List.enum_eq_enumFrom]
      symm
      apply length_flatMap_enumFrom
      intro k tr
      apply length_flatMap_congr
      intro i _
      rw [List.length_map, ih]

theorem mem_choiceChains (trs : List Transition) :
    ∀ (d : Nat) (s : Str) (c : List (Nat × Nat)),
      c ∈ choiceChains trs d s ↔ validChoices trs c d s := by
  intro d
  induction d with
  | zero =>
    intro s c
    by_cases hs : s = ['S']
    · cases c with
      | nil => simp [choiceChains, validChoices, hs]
      | cons x rest => obtain ⟨r, i⟩ := x; simp [choiceChains, validChoices, hs]
    · cases c with
      | nil => simp [choiceChains, validChoices, hs]
      | cons x rest => obtain ⟨r, i⟩ := x; simp [choiceChains, validChoices, hs]
  | succ d ih =>
    intro s c
    by_cases hs : s = ['S']
    · cases c with
      | nil => simp [choiceChains, validChoices, hs]
      | cons x rest => obtain ⟨r, i⟩ := x; simp [choiceChains, validChoices, hs]
    · cases c with
      | nil => simp [choiceChains, validChoices, hs]
      | cons x rest =>
        obtain ⟨r, i⟩ := x
        simp only [choiceChains, String.toList, hs, if_false, validChoices, ne_eq,
          not_false_eq_true, true_and, Nat.add_sub_cancel, Nat.succ_pos, List.mem_flatMap,
          List.mem_map, List.cons.injEq, Prod.mk.injEq, Prod.exists,
          List.mk_mem_enum_iff_getElem?]
        constructor
        · rintro ⟨r', tr, htr, i', hi', c', hc', ⟨rfl, rfl⟩, rfl⟩
          exact ⟨tr, htr, (mem_occurrences s tr.to_ _).1 hi', (ih _ _).1 hc'⟩
        · rintro ⟨tr, htr, hocc, hv⟩
          exact ⟨r, tr, htr, i, (mem_occurrences s tr.to_ i).2 hocc, rest, (ih _ _).2 hv,
            ⟨rfl, rfl⟩, rfl⟩

theorem nodup_choiceChains (trs : List Transition) :
    ∀ (d : Nat) (s : Str), (choiceChains trs d s).Nodup := by
  intro d
  induction d with
  | zero =>
    intro s
    by_cases hs : s = ['S'] <;> simp [choiceChains, hs]
  | succ d ih =>
    intro s
    by_cases hs : s = ['S']
    · simp [choiceChains, hs]
    · simp only [choiceChains, String.toList, hs, if_false]
      have hhead : ∀ (p : Nat × Transition) (x : List (Nat × Nat)),
          x ∈ (occurrences s p.2.to_).flatMap (fun i =>
            (choiceChains trs d (unrewriteAt s p.2 i)).map (fun c => (p.1, i) :: c)) →
          ∃ i rest, x = (p.1, i) :: rest := by
        intro p x hx
        obtain ⟨i, _, hxi⟩ := List.mem_flatMap.1 hx
        obtain ⟨c, _, rfl⟩ := List.mem_map.1 hxi
        exact ⟨i, c, rfl⟩
      rw [List.nodup_flatMap]
      constructor
      · intro p _
        rw [List.nodup_flatMap]
        constructor
        · intro i _
          exact (ih _).map (fun a b hab => (List.cons.inj hab).2)
        · refine (occurrences_pairwise s p.2.to_).imp ?_
          intro i j hij x hxi hxj
          obtain ⟨c1, _, rfl⟩ := List.mem_map.1 hxi
          obtain ⟨c2, _, h2⟩ := List.mem_map.1 hxj
          have := (Prod.mk.inj (List.cons.inj h2).1).2
          omega
      · have hfst : List.Pairwise (fun p q : Nat × Transition => p.1 ≠ q.1) trs.enum := by
          have := List.nodup_enum_map_fst trs
          rw [List.Nodup, List.pairwise_map] at this
          exact this
        refine hfst.imp ?_
        intro p q hpq x hxp hxq
        obtain ⟨i1, r1, rfl⟩ := hhead p x hxp
        obtain ⟨i2, r2, h2⟩ := hhead q _ hxq
        exact hpq (Prod.mk.inj (List.cons.inj h2).1).1

theorem backwardOut_ne_nil_iff (cfg : Config) (trs : List Transition) :
    ∀ (d : Nat) (s : Str) (path : List Str),
      backwardOut cfg trs d s path ≠ [] ↔
        ∃ (k : Nat) (c : Nat → Str), k ≤ d ∧ c 0 = s ∧ c k = "S".toList ∧
          ∀ i, i < k → reducesTo trs (c i) (c (i + 1)) ∧ c i ≠ "S".toList := by
  intro d
  induction d with
  | zero =>
    intro s path
    by_cases hs : s = "S".toList
    · subst hs
      rw [backwardOut_start]
      simp only [ne_eq, List.cons_ne_self, not_false_eq_true, true_iff]
      exact ⟨0, fun _ => "S".toList, le_refl _, rfl, rfl, fun i hi => by omega⟩
    · rw [backwardOut_zero cfg trs s path hs]
      simp only [ne_eq, not_true_eq_false, false_iff]
      rintro ⟨k, c, hk, h0, hkS, _⟩
      have : k = 0 := by omega
      subst this
      exact hs (h0 ▸ hkS)
  | succ d ih =>
    intro s path
    by_cases hs : s = "S".toList
    · subst hs
      rw [backwardOut_start]
      simp only [ne_eq, List.cons_ne_self, not_false_eq_true, true_iff]
      exact ⟨0, fun _ => "S".toList, Nat.zero_le _, rfl, rfl, fun i hi => by omega⟩
    · rw [backwardOut_succ cfg trs d s path hs]
      rw [ne_eq, List.flatMap_eq_nil_iff]
      constructor
      · intro h
        simp only [not_forall] at h
        obtain ⟨tr, htr, h2⟩ := h
        rw [List.flatMap_eq_nil_iff] at h2
        simp only [not_forall] at h2
        obtain ⟨i, hi, h3⟩ := h2
        obtain ⟨k, c, hk, h0, hkS, hstep⟩ := (ih _ _).1 h3
        refine ⟨k + 1, fun n => if n = 0 then s else c (n - 1), by omega, by simp,
          by simpa using hkS, ?_⟩
        intro j hj
        cases j with
        | zero =>
          simp only [if_true, Nat.zero_add, one_ne_zero, if_false, Nat.sub_self, h0]
          exact ⟨⟨tr, htr, i, (mem_occurrences s tr.to_ i).1 hi, rfl⟩, hs⟩
        | succ j => simpa using hstep j (by omega)
      · rintro ⟨k, c, hk, h0, hkS, hstep⟩ hall
        cases k with
        | zero => exact hs (h0 ▸ hkS)
        | succ k =>
          obtain ⟨⟨tr, htr, i, hocc, hc1⟩, _⟩ := hstep 0 (by omega)
          rw [h0] at hocc hc1
          have h3 := List.flatMap_eq_nil_iff.1 (hall tr htr) i ((mem_occurrences s tr.to_ i).2 hocc)
          refine (ih _ _).2 ⟨k, fun n => c (n + 1), by omega, ?_, hkS, ?_⟩ h3
          · simpa using hc1
          · intro j hj
            exact hstep (j + 1) (by omega)

/-- C10: for a rule set whose patterns and replacements are all non-empty, a target `t`
and a depth `d ≥ 0`, a run of `findPath` with enough fuel returns; it emits at least one
result exactly when there is a chain `t = c 0, ..., c k = "S"` of `k ≤ d` backward steps
(an occurrence of a rule's replacement text replaced by its pattern text) in which no
sequence before the last is `"S"`; and the number of results is the number of such
chains counted as lists of `(rule index, offset)` choices. -/
theorem findPath_emits_iff_and_count (cfg : Config) (trs : List Transition)
    (hpat : ∀ tr ∈ trs, tr.from_ ≠ []) (hrep : ∀ tr ∈ trs, tr.to_ ≠ [])
    (t : Str) (d : Nat) (path : List Str) (fuel : Nat) (hfuel : fuelBound trs t d ≤ fuel) :
    ∃ out, findPath cfg trs fuel t (d : Int) path = some out ∧
      (out ≠ [] ↔
        ∃ (k : Nat) (c : Nat → Str), k ≤ d ∧ c 0 = t ∧ c k = "S".toList ∧
          ∀ i, i < k → reducesTo trs (c i) (c (i + 1)) ∧ c i ≠ "S".toList) ∧
      ∃ chains : List (List (Nat × Nat)), chains.Nodup ∧
        (∀ c, c ∈ chains ↔ validChoices trs c d t) ∧ out.length = chains.length := by
  have _ := hpat
  exact ⟨_, findPath_eq_backwardOut cfg trs hrep d fuel t path hfuel,
    backwardOut_ne_nil_iff cfg trs d t path,
    choiceChains trs d t, nodup_choiceChains trs d t, mem_choiceChains trs d t,
    length_backwardOut cfg trs d t path⟩

theorem findPath_emits_iff_and_count_witness :
    (∀ tr ∈ grammarAB, tr.from_ ≠ []) ∧ (∀ tr ∈ grammarAB, tr.to_ ≠ []) ∧
      fuelBound grammarAB "ab".toList 2 ≤ 16 ∧
      ∃ out, findPath ⟨"ab".toList, 2, -1, -1, true⟩ grammarAB 16 "ab".toList ((2 : Nat) : Int) []
          = some out ∧
        (out ≠ [] ↔
          ∃ (k : Nat) (c : Nat → Str), k ≤ 2 ∧ c 0 = "ab".toList ∧ c k = "S".toList ∧
            ∀ i, i < k → reducesTo grammarAB (c i) (c (i + 1)) ∧ c i ≠ "S".toList) ∧
        ∃ chains : List (List (Nat × Nat)), chains.Nodup ∧
          (∀ c, c ∈ chains ↔ validChoices grammarAB c 2 "ab".toList) ∧
          out.length = chains.length :=
  ⟨by decide, by decide, by decide,
    findPath_emits_iff_and_count ⟨"ab".toList, 2, -1, -1, true⟩ grammarAB (by decide)
      (by decide) "ab".toList 2 [] 16 (by decide)⟩

theorem stringIndexFrom_empty (s : Str) (frm : Nat) :
    stringIndexFrom s [] frm = ((min frm s.length : Nat) : Int) := by
  rw [stringIndexFrom_clamp]
  rw [stringIndexFrom_eq_nat s [] (min frm s.length) (Nat.min_le_right _ _)]
  refine ⟨le_refl _, ?_, fun j h1 h2 => by omega⟩
  rw [occursAt_iff_starts]
  exact ⟨Nat.min_le_right _ _, List.nil_prefix⟩

theorem scanLoop_empty_none {α : Type} (body : Nat → Option (List α)) (s : Str) :
    ∀ (fuel frm : Nat), scanLoop body s [] fuel frm = none := by
  intro fuel
  induction fuel with
  | zero => intro frm; rfl
  | succ fuel ih =>
    intro frm
    unfold scanLoop
    have hne : ¬ (((min frm s.length : Nat) : Int) = -1) := by omega
    simp only [stringIndexFrom_empty, hne, if_false, Int.toNat_ofNat, ih]
    cases body (min frm s.length) <;> rfl

theorem forTransitions_none {α : Type} (body : Transition → Option (List α)) :
    ∀ (trs : List Transition) (tr : Transition), tr ∈ trs → body tr = none →
      forTransitions body trs = none := by
  intro trs
  induction trs with
  | nil => intro tr h; simp at h
  | cons a rest ih =>
    intro tr htr hb
    unfold forTransitions
    rcases List.mem_cons.1 htr with h | h
    · subst h; rw [hb]
    · rw [ih tr h hb]
      cases body a <;> rfl

theorem findPath_none_of_empty_replacement (cfg : Config) (trs : List Transition)
    (tr : Transition) (htr : tr ∈ trs) (hto : tr.to_ = []) (s : Str) (hs : s ≠ "S".toList)
    (depth : Int) (hd : depth ≠ 0) (path : List Str) (fuel : Nat) :
    findPath cfg trs fuel s depth path = none := by
  cases fuel with
  | zero => rfl
  | succ fuel =>
    unfold findPath
    have hst : checkStart s = true := by
      cases hc : checkStart s with
      | true => rfl
      | false => exact absurd ((checkStart_eq_false_iff s).1 hc) hs
    simp only [hst, Bool.not_true, Bool.false_eq_true, if_false, hd]
    apply forTransitions_none _ trs tr htr
    rw [hto]
    exact scanLoop_empty_none _ s fuel 0

/-- C11 (failing input): with the rule `S -> ~` (non-empty pattern, empty replacement),
target `"a"` and depth 1, `findPath` never returns: whatever the fuel, the run is still
inside the scan for the empty replacement text. -/
theorem findPath_epsilon_diverges (fuel : Nat) :
    (∀ tr ∈ grammarEps, tr.from_ ≠ []) ∧
      findPath ⟨"a".toList, 1, -1, -1, false⟩ grammarEps fuel "a".toList 1 [] = none :=
  ⟨by decide, findPath_none_of_empty_replacement _ grammarEps ⟨"S".toList, []⟩ (by decide) rfl
    "a".toList (by decide) 1 (by decide) [] fuel⟩

theorem findSequencesLevels_eq (trs : List Transition) (hpat : ∀ tr ∈ trs, tr.from_ ≠ []) :
    ∀ (d fuel : Nat) (s : Str) (level : Nat), fuelBound trs s d ≤ fuel →
      findSequencesLevels trs fuel s (d : Int) level = some (forwardLevels trs d s level) := by
  intro d
  induction d with
  | zero =>
    intro fuel s level hf
    cases fuel with
    | zero => unfold fuelBound at hf; omega
    | succ f =>
      unfold findSequencesLevels forwardLevels
      by_cases hnt : checkNonTerminal s <;> simp [hnt]
  | succ d ih =>
    intro fuel s level hf
    cases fuel with
    | zero => unfold fuelBound at hf; omega
    | succ f =>
      unfold findSequencesLevels forwardLevels
      by_cases hnt : checkNonTerminal s
      · have hd : ¬ (((d + 1 : Nat) : Int) = 0) := by omega
        have hd1 : intPred ((d + 1 : Nat) : Int) = (d : Int) := intPred_natCast_succ d
        simp only [hnt, Bool.not_true, Bool.false_eq_true, if_false, hd, hd1]
        have key : forTransitions (fun tr =>
            scanLoop (fun last =>
              findSequencesLevels trs f (replaceFrom s tr.from_ tr.to_ last) (d : Int) (level + 1))
              s tr.from_ f 0) trs =
            some (trs.flatMap (fun tr =>
              (occurrences s tr.from_).flatMap (fun i =>
                forwardLevels trs d (replaceFrom s tr.from_ tr.to_ i) (level + 1)))) := by
          apply forTransitions_eq
          intro tr htr
          rw [occurrences_eq_occFrom]
          apply scanLoop_eq _ _ s tr.from_ (hpat tr htr) f 0 (Nat.zero_le _)
          · unfold fuelBound at hf
            have : (d + 1) * (ruleWidth trs + 1) = d * (ruleWidth trs + 1) + (ruleWidth trs + 1) := by
              ring
            omega
          · intro i hi
            apply ih
            have hocc := ((mem_occFrom s tr.from_ 0 i).1 hi).2
            have hlen := length_replaceFrom_le s tr.from_ tr.to_ i hocc
            have hw := le_ruleWidth trs tr htr
            unfold fuelBound at hf ⊢
            have : (d + 1) * (ruleWidth trs + 1) = d * (ruleWidth trs + 1) + (ruleWidth trs + 1) := by
              ring
            omega
        rw [key]
      · simp [hnt]

theorem forwardLevels_le (trs : List Transition) :
    ∀ (d : Nat) (s : Str) (level : Nat), ∀ l ∈ forwardLevels trs d s level,
      level ≤ l ∧ l ≤ level + d := by
  intro d
  induction d with
  | zero =>
    intro s level l hl
    simp only [forwardLevels, List.mem_singleton] at hl
    omega
  | succ d ih =>
    intro s level l hl
    unfold forwardLevels at hl
    by_cases hnt : checkNonTerminal s
    · simp only [hnt, Bool.not_true, Bool.false_eq_true, if_false, List.mem_cons,
        List.mem_flatMap] at hl
      rcases hl with h | ⟨tr, _, i, _, h⟩
      · omega
      · have := ih _ _ l h
        omega
    · simp only [hnt, Bool.not_false, if_true, List.mem_singleton] at hl
      omega

/-- C12: for a rule set with non-empty patterns, a start sequence and a depth `d ≥ 0`,
`findSequences` returns when given enough fuel, and every call of its recursion runs at
a nesting level of at most `d` below the initial call. -/
theorem findSequences_terminates_nesting (cfg : Config) (trs : List Transition)
    (hpat : ∀ tr ∈ trs, tr.from_ ≠ []) (start : Str) (d : Nat) (path : List Str)
    (fuel : Nat) (hfuel : fuelBound trs start d ≤ fuel) :
    (∃ out, findSequences cfg trs fuel start (d : Int) path = some out) ∧
      ∃ levels, findSequencesLevels trs fuel start (d : Int) 0 = some levels ∧
        ∀ l ∈ levels, l ≤ d := by
  refine ⟨⟨_, findSequences_eq_forwardOut cfg trs hpat d fuel start path hfuel⟩,
    _, findSequencesLevels_eq trs hpat d fuel start 0 hfuel, ?_⟩
  intro l hl
  have := forwardLevels_le trs d start 0 l hl
  omega

theorem findSequences_terminates_nesting_witness :
    (∀ tr ∈ grammarAnBn, tr.from_ ≠ []) ∧ fuelBound grammarAnBn "S".toList 3 ≤ 21 ∧
      (∃ out, findSequences cfgDepth3 grammarAnBn 21 "S".toList ((3 : Nat) : Int) [] = some out) ∧
      ∃ levels, findSequencesLevels grammarAnBn 21 "S".toList ((3 : Nat) : Int) 0 = some levels ∧
        ∀ l ∈ levels, l ≤ 3 :=
  ⟨by decide, by decide,
    findSequences_terminates_nesting cfgDepth3 grammarAnBn (by decide) "S".toList 3 [] 21
      (by decide)⟩

theorem indexOpt_eq_none_iff (sub s : Str) :
    indexOpt sub s = none ↔ ∀ i, ¬ occursAt s sub i := by
  have h := stringIndexFrom_eq s sub 0 (Nat.zero_le _)
  have h1 := stringIndexFrom_eq_neg_one s sub 0 (Nat.zero_le _)
  rw [List.drop_zero] at h
  constructor
  · intro hn i
    rw [hn] at h
    exact h1.1 h i (Nat.zero_le _)
  · intro hall
    have := h1.2 (fun i _ => hall i)
    rw [h] at this
    cases hidx : indexOpt sub s with
    | none => rfl
    | some j =>
      rw [hidx] at this
      have h2 : ((j + 0 : Nat) : Int) = -1 := this
      omega

theorem indexOpt_eq_some_iff (sub s : Str) (m : Nat) :
    indexOpt sub s = some m ↔ occursAt s sub m ∧ ∀ j, j < m → ¬ occursAt s sub j := by
  have h := stringIndexFrom_eq s sub 0 (Nat.zero_le _)
  have h1 := stringIndexFrom_eq_nat s sub 0 (Nat.zero_le _) m
  rw [List.drop_zero] at h
  constructor
  · intro hs
    rw [hs] at h
    have h2 : stringIndexFrom s sub 0 = (m : Int) := by rw [h]; rfl
    obtain ⟨_, h3, h4⟩ := h1.1 h2
    exact ⟨h3, fun j hj => h4 j (Nat.zero_le _) hj⟩
  · rintro ⟨h3, h4⟩
    have h2 := h1.2 ⟨Nat.zero_le _, h3, fun j _ hj => h4 j hj⟩
    rw [h] at h2
    cases hidx : indexOpt sub s with
    | none =>
      rw [hidx] at h2
      have : (-1 : Int) = (m : Int) := h2
      omega
    | some j =>
      rw [hidx] at h2
      have : ((j + 0 : Nat) : Int) = (m : Int) := h2
      have : j = m := by omega
      rw [this]

theorem splitLoop_of_absent (sep s : Str) (h : ∀ i, ¬ occursAt s sep i) (fuel : Nat) :
    splitLoop sep fuel s = [s] := by
  cases fuel with
  | zero => rfl
  | succ fuel =>
    unfold splitLoop
    rw [(indexOpt_eq_none_iff sep s).2 h]

theorem splitLoop_of_first (sep s : Str) (m : Nat) (h : occursAt s sep m)
    (hmin : ∀ j, j < m → ¬ occursAt s sep j) (fuel : Nat) :
    splitLoop sep (fuel + 1) s = s.take m :: splitLoop sep fuel (s.drop (m + sep.length)) := by
  rw [splitLoop, (indexOpt_eq_some_iff sep s m).2 ⟨h, hmin⟩]

theorem splitLoop_length_pos (sep : Str) (fuel : Nat) (s : Str) :
    1 ≤ (splitLoop sep fuel s).length := by
  cases fuel with
  | zero => simp [splitLoop]
  | succ fuel =>
    unfold splitLoop
    cases indexOpt sep s <;> simp

theorem occursAt_drop (s sub : Str) (k i : Nat) (h : occursAt s sub (k + i)) :
    occursAt (s.drop k) sub i := by
  rw [occursAt_iff_starts] at h ⊢
  rw [List.drop_drop, List.length_drop]
  exact ⟨by omega, h.2⟩

theorem occursAt_arrow (s : Str) (i : Nat) :
    occursAt s "->".toList i ↔ s[i]? = some '-' ∧ s[i + 1]? = some '>' := by
  rw [occursAt_iff_starts]
  constructor
  · rintro ⟨_, t, ht⟩
    have h0 : s[i]? = (s.drop i)[0]? := by simp
    have h1 : s[i + 1]? = (s.drop i)[1]? := by simp
    rw [h0, h1, ← ht]
    simp
  · rintro ⟨h0, h1⟩
    have hi : i + 1 < s.length := by
      by_contra hc
      rw [List.getElem?_eq_none (by omega)] at h1
      cases h1
    refine ⟨by omega, ?_⟩
    have e1 : s.drop i = s[i] :: s.drop (i + 1) := List.drop_eq_getElem_cons (by omega)
    have e2 : s.drop (i + 1) = s[i + 1] :: s.drop (i + 1 + 1) := List.drop_eq_getElem_cons hi
    rw [List.getElem?_eq_getElem (by omega)] at h0 h1
    simp only [Option.some.injEq] at h0 h1
    rw [e1, e2, h0, h1]
    exact ⟨s.drop (i + 1 + 1), rfl⟩

theorem occursAt_single (s : Str) (c : Char) (i : Nat) :
    occursAt s [c] i ↔ s[i]? = some c := by
  rw [occursAt_iff_starts]
  constructor
  · rintro ⟨_, t, ht⟩
    have h0 : s[i]? = (s.drop i)[0]? := by simp
    rw [h0, ← ht]
    simp
  · intro h0
    have hi : i < s.length := by
      by_contra hc
      rw [List.getElem?_eq_none (by omega)] at h0
      cases h0
    refine ⟨by omega, ?_⟩
    have e1 : s.drop i = s[i] :: s.drop (i + 1) := List.drop_eq_getElem_cons hi
    rw [List.getElem?_eq_getElem hi] at h0
    simp only [Option.some.injEq] at h0
    rw [e1, h0]
    exact ⟨s.drop (i + 1), rfl⟩

theorem stringsJoin_cons_cons (a b : Str) (rest : List Str) (sep : Str) :
    stringsJoin (a :: b :: rest) sep = a ++ sep ++ stringsJoin (b :: rest) sep := by
  simp [stringsJoin, List.intercalate, List.intersperse]

theorem stringsJoin_singleton (a : Str) (sep : Str) : stringsJoin [a] sep = a := by
  simp [stringsJoin, List.intercalate, List.intersperse]

theorem arrow_first (lhs rhs : Str) (hl : ∀ i, ¬ occursAt lhs "->".toList i) :
    occursAt (lhs ++ "->".toList ++ rhs) "->".toList lhs.length ∧
      ∀ j, j < lhs.length → ¬ occursAt (lhs ++ "->".toList ++ rhs) "->".toList j := by
  constructor
  · rw [occursAt_arrow]
    constructor
    · rw [List.append_assoc, List.getElem?_append_right (le_refl _)]; simp
    · rw [List.append_assoc, List.getElem?_append_right (by omega)]; simp
  · intro j hj hocc
    rw [occursAt_arrow] at hocc
    by_cases hj1 : j + 1 < lhs.length
    · apply hl j
      rw [occursAt_arrow]
      rw [List.append_assoc, List.getElem?_append_left hj,
        List.getElem?_append_left hj1] at hocc
      exact hocc
    · have hj2 : j + 1 = lhs.length := by omega
      have h2 := hocc.2
      rw [List.append_assoc, List.getElem?_append_right (by omega), hj2] at h2
      simp at h2

theorem stringsSplit_arrow (lhs rhs : Str) (hl : ∀ i, ¬ occursAt lhs "->".toList i)
    (hr : ∀ i, ¬ occursAt rhs "->".toList i) :
    stringsSplit (lhs ++ "->".toList ++ rhs) "->".toList = [lhs, rhs] := by
  obtain ⟨h1, h2⟩ := arrow_first lhs rhs hl
  unfold stringsSplit
  rw [splitLoop_of_first _ _ lhs.length h1 h2]
  have e1 : List.take lhs.length (lhs ++ "->".toList ++ rhs) = lhs := by
    rw [List.append_assoc, List.take_left']
    rfl
  have e2 : List.drop (lhs.length + "->".toList.length) (lhs ++ "->".toList ++ rhs) = rhs := by
    have : lhs.length + "->".toList.length = (lhs ++ "->".toList).length := by simp
    rw [this, List.drop_left']
    rfl
  rw [e1, e2, splitLoop_of_absent _ rhs hr]

theorem splitLoop_bar (alts : List Str) :
    ∀ (fuel : Nat), alts ≠ [] → (∀ a ∈ alts, '|' ∉ a) → alts.length ≤ fuel →
      splitLoop "|".toList fuel (stringsJoin alts "|".toList) = alts := by
  induction alts with
  | nil => intro fuel h; exact absurd rfl h
  | cons a rest ih =>
    intro fuel _ hbar hfuel
    have hno : ∀ i, ¬ occursAt a ['|'] i := by
      intro i hocc
      rw [occursAt_single] at hocc
      exact hbar a (by simp) (List.mem_iff_getElem?.2 ⟨i, hocc⟩)
    cases rest with
    | nil =>
      rw [stringsJoin_singleton]
      exact splitLoop_of_absent _ a hno fuel
    | cons b rest =>
      rw [stringsJoin_cons_cons]
      obtain ⟨f, rfl⟩ : ∃ f, fuel = f + 1 := ⟨fuel - 1, by simp at hfuel; omega⟩
      have h1 : occursAt (a ++ "|".toList ++ stringsJoin (b :: rest) "|".toList) "|".toList
          a.length := by
        show occursAt _ ['|'] _
        rw [occursAt_single, List.append_assoc, List.getElem?_append_right (le_refl _)]
        simp
      have h2 : ∀ j, j < a.length →
          ¬ occursAt (a ++ "|".toList ++ stringsJoin (b :: rest) "|".toList) "|".toList j := by
        intro j hj hocc
        apply hno j
        have hocc' : occursAt _ ['|'] j := hocc
        rw [occursAt_single, List.append_assoc, List.getElem?_append_left hj] at hocc'
        rw [occursAt_single]
        exact hocc'
      rw [splitLoop_of_first _ _ a.length h1 h2]
      have e1 : List.take a.length (a ++ "|".toList ++ stringsJoin (b :: rest) "|".toList) = a := by
        rw [List.append_assoc, List.take_left']
        rfl
      have e2 : List.drop (a.length + "|".toList.length)
          (a ++ "|".toList ++ stringsJoin (b :: rest) "|".toList)
            = stringsJoin (b :: rest) "|".toList := by
        have : a.length + "|".toList.length = (a ++ "|".toList).length := by simp
        rw [this, List.drop_left']
        rfl
      rw [e1, e2, ih f (by simp) (fun x hx => hbar x (by simp [hx]))
        (by simp at hfuel ⊢; omega)]

theorem length_le_stringsJoin (alts : List Str) (sep : Str) (hsep : 1 ≤ sep.length) :
    alts.length ≤ (stringsJoin alts sep).length + 1 := by
  induction alts with
  | nil => simp
  | cons a rest ih =>
    cases rest with
    | nil => simp
    | cons b rest =>
      rw [stringsJoin_cons_cons]
      simp only [List.length_cons, List.length_append] at ih ⊢
      omega

theorem stringsSplit_bar (alts : List Str) (hne : alts ≠ []) (hbar : ∀ a ∈ alts, '|' ∉ a) :
    stringsSplit (stringsJoin alts "|".toList) "|".toList = alts :=
  splitLoop_bar alts _ hne hbar (length_le_stringsJoin alts _ (by decide))

theorem parseLine_of_absent (line : Str) (h : ∀ i, ¬ occursAt line "->".toList i) :
    parseLine line = [] := by
  unfold parseLine stringsSplit
  rw [splitLoop_of_absent _ line h]
  rfl

theorem parseLine_of_two (line : Str) (i j : Nat) (hij : i < j)
    (hi : occursAt line "->".toList i) (hj : occursAt line "->".toList j) :
    parseLine line = [] := by
  -- the first occurrence `m` is at or before `i`
  have hex : ∃ m, occursAt line "->".toList m ∧ ∀ k, k < m → ¬ occursAt line "->".toList k := by
    cases hidx : indexOpt "->".toList line with
    | none => exact absurd hi ((indexOpt_eq_none_iff _ _).1 hidx i)
    | some m => exact ⟨m, (indexOpt_eq_some_iff _ _ m).1 hidx⟩
  obtain ⟨m, hm, hmin⟩ := hex
  have hmi : m ≤ i := by
    by_contra hc
    exact hmin i (by omega) hi
  have hjm : m + 2 ≤ j := by
    by_contra hc
    have hj1 : j = m + 1 := by omega
    subst hj1
    have h1 := ((occursAt_arrow line m).1 hm).2
    have h2 := ((occursAt_arrow line (m + 1)).1 hj).1
    rw [h1] at h2
    exact absurd h2 (by decide)
  have hlen : 1 ≤ line.length := by
    have h1 := hm.1
    have h2 : "->".toList.length = 2 := rfl
    omega
  obtain ⟨f, hf⟩ : ∃ f, line.length = f + 1 := ⟨line.length - 1, by omega⟩
  have hrest : occursAt (line.drop (m + "->".toList.length)) "->".toList (j - (m + 2)) := by
    apply occursAt_drop
    have : m + "->".toList.length + (j - (m + 2)) = j := by
      have : "->".toList.length = 2 := rfl
      omega
    rw [this]
    exact hj
  have hlen2 : 2 ≤ (splitLoop "->".toList (f + 1) (line.drop (m + "->".toList.length))).length := by
    unfold splitLoop
    cases hidx : indexOpt "->".toList (line.drop (m + "->".toList.length)) with
    | none => exact absurd hrest ((indexOpt_eq_none_iff _ _).1 hidx _)
    | some m' =>
      have := splitLoop_length_pos "->".toList f
        ((line.drop (m + "->".toList.length)).drop (m' + "->".toList.length))
      simp only [List.length_cons]
      omega
  unfold parseLine stringsSplit
  rw [splitLoop_of_first _ _ m hm hmin, hf]
  have hne : (List.take m line ::
      splitLoop "->".toList (f + 1) (List.drop (m + "->".toList.length) line)).length ≠ 2 := by
    simp only [List.length_cons]
    omega
  simp only [bne_iff_ne, ne_eq, hne, not_false_eq_true, if_true]

theorem parseLine_of_count_ne_one (line : Str)
    (h : (occurrences line "->".toList).length ≠ 1) : parseLine line = [] := by
  have hp := occurrences_pairwise line "->".toList
  match hocc : occurrences line "->".toList with
  | [] =>
    apply parseLine_of_absent
    intro i hi
    have := (mem_occurrences line _ i).2 hi
    rw [hocc] at this
    simp at this
  | [a] => rw [hocc] at h; simp at h
  | a :: b :: rest =>
    rw [hocc] at hp
    have hab : a < b := (List.pairwise_cons.1 hp).1 b (by simp)
    exact parseLine_of_two line a b hab
      ((mem_occurrences line _ a).1 (by rw [hocc]; simp))
      ((mem_occurrences line _ b).1 (by rw [hocc]; simp))

theorem parseLine_of_shape (lhs : Str) (alts : List Str)
    (hl : ∀ i, ¬ occursAt lhs "->".toList i)
    (hr : ∀ i, ¬ occursAt (stringsJoin alts "|".toList) "->".toList i)
    (hne : alts ≠ []) (hbar : ∀ a ∈ alts, '|' ∉ a) :
    parseLine (lhs ++ "->".toList ++ stringsJoin alts "|".toList) =
      alts.map (fun a => ⟨lhs, if a = "~".toList then [] else a⟩) := by
  unfold parseLine
  rw [stringsSplit_arrow lhs _ hl hr]
  simp only [List.length_cons, List.length_nil, bne_self_eq_false, Bool.false_eq_true, if_false,
    List.getD_cons_succ, List.getD_cons_zero]
  rw [stringsSplit_bar alts hne hbar]
  rfl

/-- C14: a line `LHS->RHS` in which neither side contains `"->"` and whose right side
is the alternatives `a1, ..., an` (`n ≥ 1`, none containing `|`) joined by `|` gives
exactly the `n` rules `(LHS, ai)` in that order, an alternative `"~"` giving the empty
replacement; a line in which `"->"` does not occur exactly once gives no rule. -/
theorem parseLine_rules (lhs : Str) (alts : List Str) (line : Str) :
    ((∀ i, ¬ occursAt lhs "->".toList i) →
      (∀ i, ¬ occursAt (stringsJoin alts "|".toList) "->".toList i) →
      alts ≠ [] → (∀ a ∈ alts, '|' ∉ a) →
        parseLine (lhs ++ "->".toList ++ stringsJoin alts "|".toList) =
            alts.map (fun a => ⟨lhs, if a = "~".toList then [] else a⟩) ∧
          (parseLine (lhs ++ "->".toList ++ stringsJoin alts "|".toList)).length =
            alts.length) ∧
      ((occurrences line "->".toList).length ≠ 1 → parseLine line = []) := by
  refine ⟨fun hl hr hne hbar => ?_, parseLine_of_count_ne_one line⟩
  rw [parseLine_of_shape lhs alts hl hr hne hbar]
  exact ⟨rfl, List.length_map _ _⟩

theorem parseLine_rules_witness :
    parseLine ("S".toList ++ "->".toList ++ stringsJoin ["aSb".toList, "~".toList] "|".toList) =
        [⟨"S".toList, "aSb".toList⟩, ⟨"S".toList, []⟩] ∧
      parseLine "a->b->c".toList = [] := by
  have h := parseLine_rules "S".toList ["aSb".toList, "~".toList] "a->b->c".toList
  refine ⟨?_, h.2 (by decide)⟩
  have h1 := (h.1 ?_ ?_ (by decide) (by decide)).1
  · rw [h1]; decide
  · intro i hi
    have hmem := (mem_occurrences _ _ i).2 hi
    have hnil : occurrences "S".toList "->".toList = [] := by decide
    rw [hnil] at hmem
    exact absurd hmem (List.not_mem_nil i)
  · intro i hi
    have hmem := (mem_occurrences _ _ i).2 hi
    have hnil : occurrences (stringsJoin ["aSb".toList, "~".toList] "|".toList)
        "->".toList = [] := by decide
    rw [hnil] at hmem
    exact absurd hmem (List.not_mem_nil i)

theorem findSequences_none_of_empty_pattern (cfg : Config) (trs : List Transition)
    (tr : Transition) (htr : tr ∈ trs) (hfrom : tr.from_ = []) (s : Str) (hs : hasUpper s)
    (depth : Int) (hd : depth ≠ 0) (path : List Str) (fuel : Nat) :
    findSequences cfg trs fuel s depth path = none := by
  cases fuel with
  | zero => rfl
  | succ fuel =>
    unfold findSequences
    have hnt := checkNonTerminal_of_hasUpper s hs
    simp only [hnt, Bool.not_true, Bool.false_eq_true, if_false, hd]
    apply forTransitions_none _ trs tr htr
    rw [hfrom]
    exact scanLoop_empty_none _ s fuel 0

/-- C15 (failing input): the line `->a` has exactly one `"->"`, so `parseLine` (and
`parseFile` on a file with that line) returns the rule with the empty pattern and
replacement `a`; a forward search over that rule set never returns. -/
theorem parseLine_empty_pattern :
    parseLine "->a".toList = [⟨[], "a".toList⟩] ∧
      parseFile ["->a".toList] = [⟨[], "a".toList⟩] ∧
      ∀ fuel : Nat,
        findSequences cfgDepth3 (parseFile ["->a".toList]) fuel "S".toList 3 [] = none := by
  refine ⟨by decide, by decide, fun fuel => ?_⟩
  have h : parseFile ["->a".toList] = [⟨[], "a".toList⟩] := by decide
  rw [h]
  exact findSequences_none_of_empty_pattern cfgDepth3 _ ⟨[], "a".toList⟩ (by simp) rfl
    "S".toList ⟨'S', by decide, by decide⟩ 3 (by decide) [] fuel

/-- C16: forward search does not deduplicate.  With rules `[S -> AB, A -> a, B -> b]`,
start `"S"`, depth 3 and no length bounds the run emits `"ab"` exactly twice, once per
order of rewriting `A` and `B`, with two different paths. -/
theorem findSequences_no_dedup (cfg : Config) (hmax : cfg.maxLength = -1)
    (hmin : cfg.minLength = -1) (fuel : Nat) (hfuel : 27 ≤ fuel) :
    findSequences cfg grammarTwoOrders fuel "S".toList 3 [] =
      some [("ab".toList,
              ["('[S]'=>'AB')".toList, "('[A]B'=>'a')".toList, "('a[B]'=>'b')".toList]),
            ("ab".toList,
              ["('[S]'=>'AB')".toList, "('A[B]'=>'b')".toList, "('[A]b'=>'a')".toList])] := by
  have hpat : ∀ tr ∈ grammarTwoOrders, tr.from_ ≠ [] := by decide
  have h3 := findSequences_eq_forwardOut cfg grammarTwoOrders hpat 3 fuel "S".toList []
    (le_trans (by decide) hfuel)
  obtain ⟨inp, md, maxL, minL, v⟩ := cfg
  simp only at hmax hmin
  subst hmax hmin
  rw [show ((3 : Int) = ((3 : Nat) : Int)) from rfl, h3]
  rfl

theorem findSequences_no_dedup_witness :
    cfgDepth3.maxLength = -1 ∧ cfgDepth3.minLength = -1 ∧ 27 ≤ 27 ∧
      ((findSequences cfgDepth3 grammarTwoOrders 27 "S".toList 3 []).map
        (fun out => (out.map Prod.fst).count "ab".toList)) = some 2 := by
  refine ⟨rfl, rfl, le_refl _, ?_⟩
  rw [findSequences_no_dedup cfgDepth3 rfl rfl 27 (le_refl _)]
  decide

theorem sublist_flatMap {α β : Type} (l : List α) (f g : α → List β)
    (h : ∀ x ∈ l, (f x).Sublist (g x)) : (l.flatMap f).Sublist (l.flatMap g) := by
  induction l with
  | nil => exact List.Sublist.refl _
  | cons a l ih =>
    rw [List.flatMap_cons, List.flatMap_cons]
    exact (h a (by simp)).append (ih (fun x hx => h x (by simp [hx])))

theorem forwardOut_sublist_succ (cfg : Config) (trs : List Transition) :
    ∀ (d : Nat) (s : Str) (path : List Str),
      (forwardOut cfg trs d s path).Sublist (forwardOut cfg trs (d + 1) s path) := by
  intro d
  induction d with
  | zero =>
    intro s path
    cases hs : checkNonTerminal s with
    | true =>
      rw [forwardOut_zero_nonterminal cfg trs s path hs]
      exact List.nil_sublist _
    | false =>
      rw [forwardOut_terminal cfg trs 0 s path hs, forwardOut_terminal cfg trs 1 s path hs]
  | succ d ih =>
    intro s path
    cases hs : checkNonTerminal s with
    | true =>
      rw [forwardOut_succ_nonterminal cfg trs d s path hs,
        forwardOut_succ_nonterminal cfg trs (d + 1) s path hs]
      apply sublist_flatMap
      intro tr _
      apply sublist_flatMap
      intro i _
      exact ih _ _
    | false =>
      rw [forwardOut_terminal cfg trs (d + 1) s path hs,
        forwardOut_terminal cfg trs (d + 1 + 1) s path hs]

/-- C19: for non-empty patterns and fixed length bounds, the result stream of
`findSequences` at depth `d` is a sublist (same results, same relative order) of the
stream at depth `d + 1`; both runs return when given enough fuel. -/
theorem findSequences_depth_monotone (cfg : Config) (trs : List Transition)
    (hpat : ∀ tr ∈ trs, tr.from_ ≠ []) (start : Str) (d : Nat) (path : List Str)
    (fuel : Nat) (hfuel : fuelBound trs start (d + 1) ≤ fuel) :
    ∃ out out', findSequences cfg trs fuel start (d : Int) path = some out ∧
      findSequences cfg trs fuel start ((d : Int) + 1) path = some out' ∧
      out.Sublist out' := by
  have hle : fuelBound trs start d ≤ fuelBound trs start (d + 1) := by
    unfold fuelBound
    have : d * (ruleWidth trs + 1) ≤ (d + 1) * (ruleWidth trs + 1) :=
      Nat.mul_le_mul_right _ (Nat.le_succ d)
    omega
  refine ⟨_, _, findSequences_eq_forwardOut cfg trs hpat d fuel start path (le_trans hle hfuel),
    ?_, forwardOut_sublist_succ cfg trs d start path⟩
  have h := findSequences_eq_forwardOut cfg trs hpat (d + 1) fuel start path hfuel
  rw [Nat.cast_add, Nat.cast_one] at h
  exact h

theorem findSequences_depth_monotone_witness :
    (∀ tr ∈ grammarAnBn, tr.from_ ≠ []) ∧ fuelBound grammarAnBn "S".toList (3 + 1) ≤ 27 ∧
      ∃ out out', findSequences cfgDepth3 grammarAnBn 27 "S".toList ((3 : Nat) : Int) [] = some out ∧
        findSequences cfgDepth3 grammarAnBn 27 "S".toList (((3 : Nat) : Int) + 1) [] = some out' ∧
        out.Sublist out' :=
  ⟨by decide, by decide,
    findSequences_depth_monotone cfgDepth3 grammarAnBn (by decide) "S".toList 3 [] 27
      (by decide)⟩

theorem reducesWithin_start (trs : List Transition) (d : Nat) :
    reducesWithin trs d "S".toList :=
  ⟨0, fun _ => "S".toList, Nat.zero_le _, rfl, rfl, fun i hi => by omega⟩

theorem reducesWithin_step (trs : List Transition) (d : Nat) (x y : Str)
    (hx : x ≠ "S".toList) (hxy : reducesTo trs x y) (hy : reducesWithin trs d y) :
    reducesWithin trs (d + 1) x := by
  obtain ⟨k, c, hk, h0, hkS, hstep⟩ := hy
  refine ⟨k + 1, fun n => if n = 0 then x else c (n - 1), by omega, by simp,
    by simpa using hkS, ?_⟩
  intro j hj
  cases j with
  | zero =>
    simp only [if_true, Nat.zero_add, one_ne_zero, if_false, Nat.sub_self, h0]
    exact ⟨hxy, hx⟩
  | succ j => simpa using hstep j (by omega)

theorem reducesWithin_mono (trs : List Transition) (d d' : Nat) (x : Str) (h : d ≤ d')
    (hx : reducesWithin trs d x) : reducesWithin trs d' x := by
  obtain ⟨k, c, hk, rest⟩ := hx
  exact ⟨k, c, le_trans hk h, rest⟩

theorem reducesTo_of_rewritesTo (trs : List Transition) (s s' : Str)
    (h : rewritesTo trs s s') : reducesTo trs s' s := by
  obtain ⟨tr, htr, i, hocc, rfl⟩ := h
  have h1 := occursAt_unrewriteAt s ⟨tr.to_, tr.from_⟩ i hocc
  have h2 := rewriteAt_unrewriteAt s ⟨tr.to_, tr.from_⟩ i hocc
  exact ⟨tr, htr, i, h1, h2.symm⟩

theorem reducesWithin_of_chain (trs : List Transition) (c : Nat → Str) (k : Nat)
    (h0 : c 0 = "S".toList) (hstep : ∀ i, i < k → rewritesTo trs (c i) (c (i + 1))) :
    ∀ j, j ≤ k → reducesWithin trs j (c j) := by
  intro j
  induction j with
  | zero => intro _; rw [h0]; exact reducesWithin_start trs 0
  | succ j ih =>
    intro hj
    by_cases hS : c (j + 1) = "S".toList
    · rw [hS]; exact reducesWithin_start trs (j + 1)
    · exact reducesWithin_step trs j _ _ hS
        (reducesTo_of_rewritesTo trs _ _ (hstep j (by omega))) (ih (by omega))

/-- C20: for a rule set whose patterns and replacements are all non-empty and a depth
`d ≥ 0`, both searches return when given enough fuel, and for every sequence `t` that
`findSequences` emits from `"S"` with depth `d`, `findPath` with target `t` and depth
`d` emits at least one result. -/
theorem findPath_finds_forward_results (cfg : Config) (trs : List Transition)
    (hpat : ∀ tr ∈ trs, tr.from_ ≠ []) (hrep : ∀ tr ∈ trs, tr.to_ ≠ []) (d : Nat) (t : Str)
    (fuel : Nat) (hfuelF : fuelBound trs "S".toList d ≤ fuel)
    (hfuelB : fuelBound trs t d ≤ fuel) :
    ∃ outF, findSequences (unbounded cfg) trs fuel "S".toList (d : Int) [] = some outF ∧
      ∃ outB, findPath cfg trs fuel t (d : Int) [] = some outB ∧
        (t ∈ outF.map Prod.fst → outB ≠ []) := by
  refine ⟨_, findSequences_eq_forwardOut (unbounded cfg) trs hpat d fuel "S".toList [] hfuelF,
    _, findPath_eq_backwardOut cfg trs hrep d fuel t [] hfuelB, ?_⟩
  intro hmem
  obtain ⟨k, c, hk, h0, hkt, hstep⟩ :=
    chain_of_mem_forwardOut (unbounded cfg) trs d "S".toList [] t hmem
  rw [backwardOut_ne_nil_iff]
  have h := reducesWithin_of_chain trs c k h0 hstep k (le_refl _)
  rw [hkt] at h
  exact reducesWithin_mono trs k d t hk h

theorem findPath_finds_forward_results_witness :
    (∀ tr ∈ grammarAB, tr.from_ ≠ []) ∧ (∀ tr ∈ grammarAB, tr.to_ ≠ []) ∧
      fuelBound grammarAB "S".toList 2 ≤ 16 ∧ fuelBound grammarAB "ab".toList 2 ≤ 16 ∧
      ∃ outF, findSequences (unbounded cfgDepth3) grammarAB 16 "S".toList ((2 : Nat) : Int) []
          = some outF ∧
        ∃ outB, findPath cfgDepth3 grammarAB 16 "ab".toList ((2 : Nat) : Int) [] = some outB ∧
          ("ab".toList ∈ outF.map Prod.fst → outB ≠ []) :=
  ⟨by decide, by decide, by decide, by decide,
    findPath_finds_forward_results cfgDepth3 grammarAB (by decide) (by decide) 2 "ab".toList 16
      (by decide) (by decide)⟩

theorem preserves_refl (st : Store) (p : Slice) : preserves st st p :=
  ⟨le_refl _, fun _ _ => ⟨rfl, fun _ _ => rfl⟩⟩

theorem preserves_trans (st1 st2 st3 : Store) (p : Slice) (h12 : preserves st1 st2 p)
    (h23 : preserves st2 st3 p) : preserves st1 st3 p := by
  refine ⟨le_trans h12.1 h23.1, fun a ha => ?_⟩
  have h1 := h12.2 a ha
  have h2 := h23.2 a (lt_of_lt_of_le ha h12.1)
  exact ⟨h2.1.trans h1.1, fun i hi => (h2.2 i hi).trans (h1.2 i hi)⟩

theorem readSlice_of_preserves (st st' : Store) (p : Slice) (hwf : wfSlice st p)
    (h : preserves st st' p) : readSlice st' p = readSlice st p := by
  unfold readSlice
  apply List.ext_getElem?
  intro i
  rw [List.getElem?_take, List.getElem?_take]
  by_cases hi : i < p.len
  · simp only [hi, if_true]
    exact (h.2 p.arr hwf.1).2 i (Or.inr hi)
  · simp only [hi, if_false]

theorem wfSlice_of_preserves (st st' : Store) (p : Slice) (hwf : wfSlice st p)
    (h : preserves st st' p) : wfSlice st' p := by
  refine ⟨lt_of_lt_of_le hwf.1 h.1, hwf.2.1, ?_⟩
  rw [(h.2 p.arr hwf.1).1]
  exact hwf.2.2

theorem length_readSlice (st : Store) (p : Slice) (hwf : wfSlice st p) :
    (readSlice st p).length = p.len := by
  unfold readSlice
  rw [List.length_take]
  have := hwf.2.1
  have := hwf.2.2
  omega

theorem getD_set_store (st : Store) (a b : Nat) (v : List Str) :
    (st.set a v).getD b [] = if a = b ∧ a < st.length then v else st.getD b [] := by
  rw [List.getD_eq_getElem?_getD, List.getD_eq_getElem?_getD, List.getElem?_set]
  by_cases hab : a = b
  · subst hab
    by_cases hlt : a < st.length
    · simp [hlt]
    · simp [hlt, List.getElem?_eq_none (Nat.le_of_not_lt hlt)]
  · simp [hab]

theorem appendSlice_wf (grow : Nat → Nat) (st : Store) (p : Slice) (x : Str)
    (hwf : wfSlice st p) :
    wfSlice (appendSlice grow st p x).1 (appendSlice grow st p x).2 := by
  unfold appendSlice
  by_cases hcap : p.len < p.cap
  · simp only [hcap, if_true]
    refine ⟨by simpa using hwf.1, by simpa using hcap, ?_⟩
    simp only [getD_set_store, hwf.1, and_self, if_true, List.length_set]
    exact hwf.2.2
  · simp only [hcap, if_false]
    refine ⟨by simp, by simp, ?_⟩
    simp only [List.getD_append_right _ _ _ _ (le_refl _), Nat.sub_self, List.getD_cons_zero,
      List.length_append, List.length_replicate, List.length_cons, List.length_nil,
      length_readSlice st p hwf]
    omega

theorem appendSlice_read (grow : Nat → Nat) (st : Store) (p : Slice) (x : Str)
    (hwf : wfSlice st p) :
    readSlice (appendSlice grow st p x).1 (appendSlice grow st p x).2 = readSlice st p ++ [x] := by
  unfold appendSlice
  by_cases hcap : p.len < p.cap
  · simp only [hcap, if_true]
    unfold readSlice
    simp only [getD_set_store, hwf.1, and_self, if_true]
    have hlen : p.len < (st.getD p.arr []).length := lt_of_lt_of_le hcap hwf.2.2
    rw [List.set_eq_take_append_cons_drop]
    simp only [hlen, if_true]
    rw [List.take_append_eq_append_take, List.length_take, Nat.min_eq_left (le_of_lt hlen)]
    have e1 : List.take (p.len + 1) (List.take p.len (st.getD p.arr [])) =
        List.take p.len (st.getD p.arr []) := by
      rw [List.take_take]
      congr 1
      omega
    rw [e1]
    have e2 : p.len + 1 - p.len = 1 := by omega
    rw [e2]
    rfl
  · simp only [hcap, if_false]
    unfold readSlice
    simp only [List.getD_append_right _ _ _ _ (le_refl _), Nat.sub_self, List.getD_cons_zero]
    apply List.take_left'
    have := length_readSlice st p hwf
    unfold readSlice at this
    rw [List.length_append, this]
    rfl

theorem appendSlice_preserves (grow : Nat → Nat) (st : Store) (p : Slice) (x : Str)
    (hwf : wfSlice st p) (st3 : Store)
    (h : preserves (appendSlice grow st p x).1 st3 (appendSlice grow st p x).2) :
    preserves st st3 p := by
  unfold appendSlice at h
  by_cases hcap : p.len < p.cap
  · simp only [hcap, if_true] at h
    refine ⟨by simpa using h.1, fun a ha => ?_⟩
    have h2 := h.2 a (by simpa using ha)
    simp only [getD_set_store, hwf.1, and_true] at h2
    constructor
    · rw [h2.1]
      by_cases hpa : p.arr = a
      · simp [hpa]
      · simp [hpa]
    · intro i hi
      have hi' : a ≠ p.arr ∨ i < p.len + 1 := by
        rcases hi with h' | h'
        · exact Or.inl h'
        · exact Or.inr (by omega)
      rw [h2.2 i hi']
      by_cases hpa : p.arr = a
      · simp only [hpa, if_true]
        have hne : p.len ≠ i := by
          rcases hi with h' | h'
          · exact absurd hpa.symm h'
          · omega
        rw [List.getElem?_set_ne hne]
      · simp [hpa]
  · simp only [hcap, if_false] at h
    refine ⟨le_trans (by simp) h.1, fun a ha => ?_⟩
    have h2 := h.2 a (by simp; omega)
    rw [List.getD_append _ _ _ _ ha] at h2
    refine ⟨h2.1, fun i hi => ?_⟩
    exact h2.2 i (Or.inl (by simp; omega))

theorem scanLoopS_refines {σ α : Type} (Inv : σ → Prop)
    (bodyS : σ → Nat → Option (σ × List α)) (body : Nat → Option (List α)) (s sub : Str)
    (h : ∀ st i, Inv st → body i = (bodyS st i).map Prod.snd ∧
      ∀ st' out, bodyS st i = some (st', out) → Inv st') :
    ∀ (fuel : Nat) (st : σ) (frm : Nat), Inv st →
      scanLoop body s sub fuel frm = (scanLoopS bodyS s sub fuel st frm).map Prod.snd ∧
        ∀ st' out, scanLoopS bodyS s sub fuel st frm = some (st', out) → Inv st' := by
  intro fuel
  induction fuel with
  | zero => intro st frm _; exact ⟨rfl, fun st' out hc => by simp [scanLoopS] at hc⟩
  | succ fuel ih =>
    intro st frm hinv
    unfold scanLoop scanLoopS
    by_cases hnf : stringIndexFrom s sub frm = -1
    · simp only [hnf, if_true, Option.map_some']
      refine ⟨trivial, fun st' out hc => ?_⟩
      simp only [Option.some.injEq, Prod.mk.injEq] at hc
      rw [← hc.1]; exact hinv
    · simp only [hnf, if_false]
      obtain ⟨hb, hbinv⟩ := h st (stringIndexFrom s sub frm).toNat hinv
      rw [hb]
      cases hbs : bodyS st (stringIndexFrom s sub frm).toNat with
      | none => exact ⟨rfl, fun st' out hc => by simp at hc⟩
      | some r =>
        obtain ⟨st1, out1⟩ := r
        have hinv1 := hbinv st1 out1 hbs
        obtain ⟨hrec, hrecinv⟩ := ih st1 ((stringIndexFrom s sub frm).toNat + 1) hinv1
        simp only [Option.map_some']
        rw [hrec]
        cases hrs : scanLoopS bodyS s sub fuel st1 ((stringIndexFrom s sub frm).toNat + 1) with
        | none => exact ⟨rfl, fun st' out hc => by simp at hc⟩
        | some r2 =>
          obtain ⟨st2, rest⟩ := r2
          refine ⟨rfl, fun st' out hc => ?_⟩
          simp only [Option.some.injEq, Prod.mk.injEq] at hc
          rw [← hc.1]
          exact hrecinv st2 rest hrs

theorem forTransitionsS_refines {σ α : Type} (Inv : σ → Prop)
    (bodyS : σ → Transition → Option (σ × List α)) (body : Transition → Option (List α))
    (h : ∀ st tr, Inv st → body tr = (bodyS st tr).map Prod.snd ∧
      ∀ st' out, bodyS st tr = some (st', out) → Inv st') :
    ∀ (trs : List Transition) (st : σ), Inv st →
      forTransitions body trs = (forTransitionsS bodyS st trs).map Prod.snd ∧
        ∀ st' out, forTransitionsS bodyS st trs = some (st', out) → Inv st' := by
  intro trs
  induction trs with
  | nil =>
    intro st hinv
    refine ⟨rfl, fun st' out hc => ?_⟩
    simp only [forTransitionsS, Option.some.injEq, Prod.mk.injEq] at hc
    rw [← hc.1]; exact hinv
  | cons tr rest ih =>
    intro st hinv
    unfold forTransitions forTransitionsS
    obtain ⟨hb, hbinv⟩ := h st tr hinv
    rw [hb]
    cases hbs : bodyS st tr with
    | none => exact ⟨rfl, fun st' out hc => by simp at hc⟩
    | some r =>
      obtain ⟨st1, out1⟩ := r
      have hinv1 := hbinv st1 out1 hbs
      obtain ⟨hrec, hrecinv⟩ := ih st1 hinv1
      simp only [Option.map_some']
      rw [hrec]
      cases hrs : forTransitionsS bodyS st1 rest with
      | none => exact ⟨rfl, fun st' out hc => by simp at hc⟩
      | some r2 =>
        obtain ⟨st2, more⟩ := r2
        refine ⟨rfl, fun st' out hc => ?_⟩
        simp only [Option.some.injEq, Prod.mk.injEq] at hc
        rw [← hc.1]
        exact hrecinv st2 more hrs

theorem findSequencesS_refines (grow : Nat → Nat) (cfg : Config) (trs : List Transition) :
    ∀ (fuel : Nat) (st : Store) (s : Str) (depth : Int) (p : Slice), wfSlice st p →
      findSequences cfg trs fuel s depth (readSlice st p) =
          (findSequencesS grow cfg trs fuel st s depth p).map Prod.snd ∧
        ∀ st' out, findSequencesS grow cfg trs fuel st s depth p = some (st', out) →
          preserves st st' p := by
  intro fuel
  induction fuel with
  | zero => intro st s depth p _; exact ⟨rfl, fun st' out hc => by simp [findSequencesS] at hc⟩
  | succ fuel ih =>
    intro st s depth p hwf
    unfold findSequences findSequencesS
    by_cases hnt : checkNonTerminal s
    · by_cases hd : depth = 0
      · simp only [hnt, Bool.not_true, Bool.false_eq_true, if_false, hd, if_true,
          Option.map_some']
        refine ⟨trivial, fun st' out hc => ?_⟩
        simp only [Option.some.injEq, Prod.mk.injEq] at hc
        rw [← hc.1]; exact preserves_refl st p
      · simp only [hnt, Bool.not_true, Bool.false_eq_true, if_false, hd]
        apply forTransitionsS_refines (fun st1 => preserves st st1 p) _ _ _ trs st
          (preserves_refl st p)
        intro st1 tr hinv1
        apply scanLoopS_refines (fun st1 => preserves st st1 p) _ _ s tr.from_ _ fuel st1 0 hinv1
        intro st2 i hinv2
        have hwf2 := wfSlice_of_preserves st st2 p hwf hinv2
        have hread := readSlice_of_preserves st st2 p hwf hinv2
        have hwfa := appendSlice_wf grow st2 p
          (sprintfStep (addBrackets s i (i + tr.from_.length)) tr.to_) hwf2
        have hreada := appendSlice_read grow st2 p
          (sprintfStep (addBrackets s i (i + tr.from_.length)) tr.to_) hwf2
        obtain ⟨h1, h2⟩ := ih _ (replaceFrom s tr.from_ tr.to_ i) (intPred depth) _ hwfa
        rw [hreada, hread] at h1
        refine ⟨h1, fun st' out hc => ?_⟩
        exact preserves_trans st st2 st' p hinv2
          (appendSlice_preserves grow st2 p _ hwf2 st' (h2 st' out hc))
    · by_cases hb : (!checkMaxLen cfg s || !checkMinLen cfg s) = true
      · simp only [hnt, Bool.not_false, if_true, hb, Option.map_some']
        refine ⟨trivial, fun st' out hc => ?_⟩
        simp only [Option.some.injEq, Prod.mk.injEq] at hc
        rw [← hc.1]; exact preserves_refl st p
      · have hb' : (!checkMaxLen cfg s || !checkMinLen cfg s) = false := by
          simpa only [Bool.not_eq_true] using hb
        simp only [hnt, Bool.not_false, if_true, hb', Bool.false_eq_true, if_false,
          Option.map_some']
        refine ⟨trivial, fun st' out hc => ?_⟩
        simp only [Option.some.injEq, Prod.mk.injEq] at hc
        rw [← hc.1]; exact preserves_refl st p

theorem validDerivation_snoc (trs : List Transition) (tr : Transition) (i : Nat)
    (htr : tr ∈ trs) :
    ∀ (l : List Step) (a b : Str), validDerivation trs a b l → occursAt b tr.from_ i →
      validDerivation trs a (rewriteAt b tr i) (l ++ [⟨b, i, tr⟩]) := by
  intro l
  induction l with
  | nil =>
    intro a b hv hocc
    simp only [validDerivation] at hv
    subst hv
    exact ⟨rfl, htr, hocc, rfl⟩
  | cons st rest ih =>
    intro a b hv hocc
    obtain ⟨h1, h2, h3, h4⟩ := hv
    exact ⟨h1, h2, h3, ih _ _ h4 hocc⟩

theorem findSequences_paths_derive (cfg : Config) (trs : List Transition) (start : Str) :
    ∀ (fuel : Nat) (s : Str) (depth : Int) (steps0 : List Step) (out : List Result),
      validDerivation trs start s steps0 →
      findSequences cfg trs fuel s depth (steps0.map Step.render) = some out →
      ∀ r ∈ out, ∃ steps : List Step, r.2 = steps.map Step.render ∧
        validDerivation trs start r.1 steps ∧
        (0 ≤ depth → (steps.length : Int) ≤ steps0.length + depth) := by
  intro fuel
  induction fuel with
  | zero => intro s depth steps0 out _ h; simp [findSequences] at h
  | succ fuel ih =>
    intro s depth steps0 out hv h r hr
    unfold findSequences at h
    by_cases hnt : checkNonTerminal s
    · by_cases hd : depth = 0
      · simp [hnt, hd] at h
        subst h
        simp at hr
      · simp only [hnt, Bool.not_true, Bool.false_eq_true, if_false, hd] at h
        obtain ⟨tr, htr, o, ho, hro⟩ := forTransitions_mem _ trs out h r hr
        obtain ⟨i, hocc, o', ho', hro'⟩ := scanLoop_mem _ s tr.from_ fuel 0 o ho r hro
        have hrw : replaceFrom s tr.from_ tr.to_ i = rewriteAt s tr i :=
          replaceFrom_occursAt s tr.from_ tr.to_ i hocc
        have hpath : List.map Step.render steps0 ++
            [sprintfStep (addBrackets s i (i + tr.from_.length)) tr.to_] =
              List.map Step.render (steps0 ++ [⟨s, i, tr⟩]) := by
          rw [List.map_append]; rfl
        simp only [hrw, hpath] at ho'
        obtain ⟨steps, h1, h2, h3⟩ := ih (rewriteAt s tr i) (intPred depth)
          (steps0 ++ [⟨s, i, tr⟩]) o'
          (validDerivation_snoc trs tr i htr steps0 start s hv hocc) ho' r hro'
        refine ⟨steps, h1, h2, fun hd0 => ?_⟩
        have hpred : intPred depth = depth - 1 := intPred_of_pos depth (by omega)
        rw [hpred] at h3
        have := h3 (by omega)
        simp only [List.length_append, List.length_cons, List.length_nil] at this
        push_cast at this
        omega
    · by_cases hb : (!checkMaxLen cfg s || !checkMinLen cfg s) = true
      · simp [hnt, hb] at h
        subst h
        simp at hr
      · have hb' : (!checkMaxLen cfg s || !checkMinLen cfg s) = false := by
          simpa only [Bool.not_eq_true] using hb
        simp only [hnt, Bool.not_false, if_true, hb', Bool.false_eq_true, if_false,
          Option.some.injEq] at h
        subst h
        rw [List.mem_singleton] at hr
        subst hr
        exact ⟨steps0, rfl, hv, fun hd0 => by omega⟩

/-- C17: each path emitted by `findSequences`, started with the empty path and run with
the path held in a Go slice (appends write into shared backing arrays whenever there is
spare capacity, for every growth policy of the runtime), is exactly the rendering of
the steps of its own branch in application order: the steps form a derivation from the
start to the emitted sequence, and there are at most `depth` of them.  The run on
slices emits the same results as the run on path values, and returns for non-empty
patterns and a depth `d ≥ 0` when given enough fuel. -/
theorem findSequences_paths_own_branch (grow : Nat → Nat) (cfg : Config)
    (trs : List Transition) (start : Str) (depth : Int) :
    (∀ (fuel : Nat) (st' : Store) (out : List Result),
        findSequencesS grow cfg trs fuel [[]] start depth ⟨0, 0, 0⟩ = some (st', out) →
        ∀ r ∈ out, ∃ steps : List Step, r.2 = steps.map Step.render ∧
          validDerivation trs start r.1 steps ∧ (0 ≤ depth → (steps.length : Int) ≤ depth)) ∧
      (∀ fuel : Nat,
        (findSequencesS grow cfg trs fuel [[]] start depth ⟨0, 0, 0⟩).map Prod.snd =
          findSequences cfg trs fuel start depth []) ∧
      ((∀ tr ∈ trs, tr.from_ ≠ []) → ∀ d : Nat, depth = (d : Int) → ∀ fuel : Nat,
        fuelBound trs start d ≤ fuel →
        ∃ st' out, findSequencesS grow cfg trs fuel [[]] start depth ⟨0, 0, 0⟩ = some (st', out)) := by
  have hwf : wfSlice [[]] ⟨0, 0, 0⟩ := ⟨by decide, le_refl _, by decide⟩
  have href : ∀ fuel : Nat,
      (findSequencesS grow cfg trs fuel [[]] start depth ⟨0, 0, 0⟩).map Prod.snd =
        findSequences cfg trs fuel start depth [] := fun fuel =>
    ((findSequencesS_refines grow cfg trs fuel [[]] start depth ⟨0, 0, 0⟩ hwf).1).symm
  refine ⟨?_, href, ?_⟩
  · intro fuel st' out hrun r hr
    have hv : findSequences cfg trs fuel start depth (([] : List Step).map Step.render) = some out := by
      have := href fuel
      rw [hrun] at this
      exact this.symm
    obtain ⟨steps, h1, h2, h3⟩ :=
      findSequences_paths_derive cfg trs start fuel start depth [] out rfl hv r hr
    exact ⟨steps, h1, h2, fun hd => by simpa using h3 hd⟩
  · intro hpat d hd fuel hfuel
    subst hd
    have h := href fuel
    rw [findSequences_eq_forwardOut cfg trs hpat d fuel start [] hfuel] at h
    cases hrun : findSequencesS grow cfg trs fuel [[]] start (d : Int) ⟨0, 0, 0⟩ with
    | none => rw [hrun] at h; cases h
    | some r => exact ⟨r.1, r.2, rfl⟩

theorem findSequences_paths_own_branch_witness :
    ∃ st' out, findSequencesS (fun n => 2 * n) cfgDepth3 grammarTwoOrders 27 [[]] "S".toList 3
        ⟨0, 0, 0⟩ = some (st', out) ∧
      ∀ r ∈ out, ∃ steps : List Step, r.2 = steps.map Step.render ∧
        validDerivation grammarTwoOrders "S".toList r.1 steps ∧
        ((0 : Int) ≤ 3 → (steps.length : Int) ≤ 3) := by
  have h := findSequences_paths_own_branch (fun n => 2 * n) cfgDepth3 grammarTwoOrders
    "S".toList 3
  obtain ⟨st', out, hrun⟩ := h.2.2 (by decide) 3 rfl 27 (by decide)
  exact ⟨st', out, hrun, h.1 27 st' out hrun⟩

theorem addBrackets_occursAt (s p : Str) (i : Nat) (h : occursAt s p i) :
    addBrackets s i (i + p.length) =
      s.take i ++ "[".toList ++ p ++ "]".toList ++ s.drop (i + p.length) := by
  unfold addBrackets
  have h2 : (s.take (i + p.length)).drop i = p := h.2
  rw [h2]

theorem unbracket_occursAt (s p : Str) (i : Nat) (h : occursAt s p i) :
    s.take i ++ p ++ s.drop (i + p.length) = s := by
  have h2 : (s.take (i + p.length)).drop i = p := h.2
  have h3 : s.take i = (s.take (i + p.length)).take i := by
    rw [List.take_take]
    congr 1
    omega
  have e : s.take i ++ p = s.take (i + p.length) := by
    have h4 := List.take_append_drop i (s.take (i + p.length))
    rw [h2, ← h3] at h4
    exact h4
  rw [e, List.take_append_drop]

/-- C18: when `p` occurs in `s` at offset `i`, the step `findSequences` records for the
rule `(p, r)` there is `"('" + s[:i] + "[" + p + "]" + s[i+len(p):] + "'=>'" + r + "')"`,
and taking the inserted brackets out gives back `s`; every entry of every emitted path
is such a string for a rule of the rule set; and the verbose output of a result is the
steps joined by `","`, a blank, and the result sequence in single quotes (the line
end follows), the non-verbose output the quoted sequence alone. -/
theorem findSequences_level (cfg : Config) (trs : List Transition)
    (hpat : ∀ tr ∈ trs, tr.from_ ≠ []) (n : Nat) (depth : Int) (hne : depth ≠ 0)
    (hchild : ∀ (fuel : Nat) (s : Str) (path : List Str), fuelBound trs s n ≤ fuel →
      findSequences cfg trs fuel s (intPred depth) path = some (forwardOut cfg trs n s path)) :
    ∀ (fuel : Nat) (s : Str) (path : List Str), fuelBound trs s (n + 1) ≤ fuel →
      findSequences cfg trs fuel s depth path = some (forwardOut cfg trs (n + 1) s path) := by
  intro fuel s path hf
  cases fuel with
  | zero => unfold fuelBound at hf; omega
  | succ f =>
    unfold findSequences forwardOut
    by_cases hnt : checkNonTerminal s
    · simp only [hnt, Bool.not_true, Bool.false_eq_true, if_false, hne]
      apply forTransitions_eq
      intro tr htr
      rw [occurrences_eq_occFrom]
      apply scanLoop_eq _ _ s tr.from_ (hpat tr htr) f 0 (Nat.zero_le _)
      · unfold fuelBound at hf
        have : (n + 1) * (ruleWidth trs + 1) = n * (ruleWidth trs + 1) + (ruleWidth trs + 1) := by
          ring
        omega
      · intro i hi
        apply hchild
        have hocc := ((mem_occFrom s tr.from_ 0 i).1 hi).2
        have hlen := length_replaceFrom_le s tr.from_ tr.to_ i hocc
        have hw := le_ruleWidth trs tr htr
        unfold fuelBound at hf ⊢
        have : (n + 1) * (ruleWidth trs + 1) = n * (ruleWidth trs + 1) + (ruleWidth trs + 1) := by
          ring
        omega
    · by_cases hb : (!checkMaxLen cfg s || !checkMinLen cfg s) <;> simp [hnt, hb]

theorem findSequences_eq_forwardOut_neg (cfg : Config) (trs : List Transition)
    (hpat : ∀ tr ∈ trs, tr.from_ ≠ []) :
    ∀ (m : Nat), minInt + (m : Int) < 0 →
      ∀ (fuel : Nat) (s : Str) (path : List Str),
        fuelBound trs s (9223372036854775807 + m + 1) ≤ fuel →
        findSequences cfg trs fuel s (minInt + (m : Int)) path =
          some (forwardOut cfg trs (9223372036854775807 + m + 1) s path) := by
  intro m
  induction m with
  | zero =>
    intro hneg
    apply findSequences_level cfg trs hpat
    · unfold minInt; omega
    · intro fuel s path hf
      have hp : intPred (minInt + ((0 : Nat) : Int)) = ((9223372036854775807 : Nat) : Int) := by
        unfold intPred maxInt
        simp
      rw [hp]
      exact findSequences_eq_forwardOut cfg trs hpat _ fuel s path hf
  | succ m ih =>
    intro hneg
    have hneg' : minInt + (m : Int) < 0 := by push_cast at hneg; omega
    have e : 9223372036854775807 + (m + 1) = 9223372036854775807 + m + 1 := by omega
    rw [e]
    apply findSequences_level cfg trs hpat
    · omega
    · intro fuel s path hf
      have hp : intPred (minInt + ((m + 1 : Nat) : Int)) = minInt + (m : Int) := by
        unfold intPred
        have hne : ¬ (minInt + ((m + 1 : Nat) : Int) = minInt) := by push_cast; omega
        rw [if_neg hne]
        push_cast
        omega
      rw [hp]
      exact ih hneg' fuel s path hf

theorem findSequences_eq_forwardOut_int (cfg : Config) (trs : List Transition)
    (hpat : ∀ tr ∈ trs, tr.from_ ≠ []) (depth : Int) (hlo : minInt ≤ depth)
    (fuel : Nat) (s : Str) (path : List Str)
    (hfuel : fuelBound trs s (callsToZero depth) ≤ fuel) :
    findSequences cfg trs fuel s depth path =
      some (forwardOut cfg trs (callsToZero depth) s path) := by
  unfold callsToZero at hfuel ⊢
  by_cases h0 : 0 ≤ depth
  · simp only [h0, if_true] at hfuel ⊢
    have h := findSequences_eq_forwardOut cfg trs hpat depth.toNat fuel s path hfuel
    rw [Int.toNat_of_nonneg h0] at h
    exact h
  · simp only [h0, if_false] at hfuel ⊢
    unfold minInt at hlo
    obtain ⟨m, hm⟩ : ∃ m : Nat, depth = minInt + (m : Int) :=
      ⟨(depth + 9223372036854775808).toNat, by unfold minInt; omega⟩
    have hn : (depth + 18446744073709551616).toNat = 9223372036854775807 + m + 1 := by
      unfold minInt at hm; omega
    rw [hn] at hfuel ⊢
    rw [hm]
    exact findSequences_eq_forwardOut_neg cfg trs hpat m (by rw [← hm]; omega) fuel s path hfuel

/-- C13: every search budget that passes the validation in `init` is bounded: for every
configuration (its depth a Go `int`), every rule set with non-empty patterns and every
start sequence, `findSequences` called with the configured depth returns when given
enough fuel.  The recursion ends when the depth reaches `0`: after `d` nested calls for
`d ≥ 0`, and for `d < 0`, the decrement wrapping around, after `d + 2^64` nested calls
(`2^64 - 1` for `-d -1`). -/
theorem findSequences_terminates_of_budget (cfg : Config) (trs : List Transition)
    (hvalid : validBudget cfg = true) (hlo : minInt ≤ cfg.maxDepth)
    (hhi : cfg.maxDepth ≤ maxInt) (hpat : ∀ tr ∈ trs, tr.from_ ≠ []) (start : Str)
    (fuel : Nat) (hfuel : fuelBound trs start (callsToZero cfg.maxDepth) ≤ fuel) :
    ∃ out, findSequences cfg trs fuel start cfg.maxDepth [] = some out := by
  have _ := hvalid
  have _ := hhi
  exact ⟨_, findSequences_eq_forwardOut_int cfg trs hpat cfg.maxDepth hlo fuel start [] hfuel⟩

theorem findSequences_terminates_of_budget_witness :
    validBudget cfgNoDepth = true ∧ minInt ≤ cfgNoDepth.maxDepth ∧ cfgNoDepth.maxDepth ≤ maxInt ∧
      (∀ tr ∈ grammarGrow, tr.from_ ≠ []) ∧
      callsToZero cfgNoDepth.maxDepth = 18446744073709551615 ∧
      ∃ out, findSequences cfgNoDepth grammarGrow
        (fuelBound grammarGrow "S".toList (callsToZero cfgNoDepth.maxDepth)) "S".toList
        cfgNoDepth.maxDepth [] = some out :=
  ⟨by decide, by decide, by decide, by decide, by decide,
    findSequences_terminates_of_budget cfgNoDepth grammarGrow (by decide) (by decide)
      (by decide) (by decide) "S".toList _ (le_refl _)⟩

theorem isAscii_of_chain (trs : List Transition) (hrules : ∀ tr ∈ trs, isAscii tr.to_)
    (c : Nat → Str) (k : Nat) (h0 : isAscii (c 0))
    (hstep : ∀ i, i < k → rewritesTo trs (c i) (c (i + 1))) :
    ∀ j, j ≤ k → isAscii (c j) := by
  intro j
  induction j with
  | zero => intro _; exact h0
  | succ j ih =>
    intro hj
    obtain ⟨tr, htr, i, _, hnext⟩ := hstep j (by omega)
    rw [hnext]
    exact isAscii_rewriteAt _ tr i (ih (by omega)) (hrules tr htr)

/-- C2 (counterexample): the start sequence consisting of the single byte `0xFF` has no
uppercase letter, satisfies the (absent) length bounds and is reached from itself by the
empty chain, yet `findSequences` emits nothing from it, at depth 3 with the rules
`S -> aSb`, `S -> ""` and at depth 0 with any flags, any rules and any fuel:
`strings.ToLower` rewrites the byte to the encoding of `U+FFFD`, so `checkNonTerminal`
is true of it. -/
theorem findSequences_invalid_byte_counterexample :
    (∀ tr ∈ grammarAnBn, tr.from_ ≠ []) ∧
      cfgInvalidByte.inputSequence = [Char.ofNat 0xFF] ∧
      ¬ hasUpper [Char.ofNat 0xFF] ∧ withinBounds cfgInvalidByte [Char.ofNat 0xFF] ∧
      (∃ (k : Nat) (c : Nat → Str), k ≤ 3 ∧ c 0 = [Char.ofNat 0xFF] ∧ c k = [Char.ofNat 0xFF] ∧
        ∀ i, i < k → rewritesTo grammarAnBn (c i) (c (i + 1)) ∧ hasUpper (c i)) ∧
      stringsToLower [Char.ofNat 0xFF] = runeErrorBytes ∧
      checkNonTerminal [Char.ofNat 0xFF] = true ∧
      fuelBound grammarAnBn [Char.ofNat 0xFF] 3 ≤ 21 ∧
      findSequences cfgInvalidByte grammarAnBn 21 [Char.ofNat 0xFF] cfgInvalidByte.maxDepth []
        = some [] ∧
      (∀ (cfg : Config) (trs : List Transition) (fuel : Nat),
        findSequences cfg trs (fuel + 1) [Char.ofNat 0xFF] 0 [] = some []) ∧
      [Char.ofNat 0xFF] ∉ ([] : List Result).map Prod.fst := by
  refine ⟨by decide, rfl, by unfold hasUpper; decide, by decide,
    ⟨0, fun _ => [Char.ofNat 0xFF], by decide, rfl, rfl, fun i hi => absurd hi (by omega)⟩,
    by decide, by decide, by decide, by decide, ?_, by simp⟩
  intro cfg trs fuel
  have hnt : checkNonTerminal [Char.ofNat 0xFF] = true := by decide
  simp [findSequences, hnt]

/-- C2 (amended): for a rule set with non-empty patterns and ASCII replacements, an ASCII
start sequence and a depth `d ≥ 0`, a run of `findSequences` with enough fuel returns,
and it emits `w` exactly when `w` has no uppercase letter, `w` satisfies the configured length
bounds, and there is a chain of at most `d` rewrites from the start to `w` whose
sequences before the last all contain an uppercase letter.  Every sequence the run
reaches, and so every emitted one, is ASCII again. -/
theorem findSequences_emits_iff (cfg : Config) (trs : List Transition)
    (hpat : ∀ tr ∈ trs, tr.from_ ≠ []) (hrules : ∀ tr ∈ trs, isAscii tr.to_)
    (start : Str) (hstart : isAscii start) (d : Nat) (path : List Str)
    (fuel : Nat) (hfuel : fuelBound trs start d ≤ fuel) :
    ∃ out, findSequences cfg trs fuel start (d : Int) path = some out ∧
      (∀ w : Str, w ∈ out.map Prod.fst ↔
        (¬ hasUpper w ∧ withinBounds cfg w ∧
          ∃ (k : Nat) (c : Nat → Str), k ≤ d ∧ c 0 = start ∧ c k = w ∧
            ∀ i, i < k → rewritesTo trs (c i) (c (i + 1)) ∧ hasUpper (c i))) ∧
      (∀ (k : Nat) (c : Nat → Str), c 0 = start →
        (∀ i, i < k → rewritesTo trs (c i) (c (i + 1))) → ∀ j, j ≤ k → isAscii (c j)) ∧
      ∀ w ∈ out.map Prod.fst, isAscii w := by
  refine ⟨_, findSequences_eq_forwardOut cfg trs hpat d fuel start path hfuel,
    fun w => mem_forwardOut_iff cfg trs hrules d start path w hstart, ?_, ?_⟩
  · intro k c h0 hstep
    exact isAscii_of_chain trs hrules c k (h0 ▸ hstart) hstep
  · intro w hw
    obtain ⟨_, _, k, c, _, h0, hk, hstep⟩ := (mem_forwardOut_iff cfg trs hrules d start path w hstart).1 hw
    rw [← hk]
    exact isAscii_of_chain trs hrules c k (h0 ▸ hstart) (fun i hi => (hstep i hi).1) k (le_refl _)

theorem findSequences_emits_iff_witness :
    (∀ tr ∈ grammarAnBn, tr.from_ ≠ []) ∧ (∀ tr ∈ grammarAnBn, isAscii tr.to_) ∧
      isAscii "S".toList ∧ fuelBound grammarAnBn "S".toList 3 ≤ 21 ∧
      ∃ out, findSequences cfgDepth3 grammarAnBn 21 "S".toList ((3 : Nat) : Int) [] = some out ∧
        (∀ w : Str, w ∈ out.map Prod.fst ↔
          (¬ hasUpper w ∧ withinBounds cfgDepth3 w ∧
            ∃ (k : Nat) (c : Nat → Str), k ≤ 3 ∧ c 0 = "S".toList ∧ c k = w ∧
              ∀ i, i < k → rewritesTo grammarAnBn (c i) (c (i + 1)) ∧ hasUpper (c i))) ∧
        (∀ (k : Nat) (c : Nat → Str), c 0 = "S".toList →
          (∀ i, i < k → rewritesTo grammarAnBn (c i) (c (i + 1))) → ∀ j, j ≤ k → isAscii (c j)) ∧
        ∀ w ∈ out.map Prod.fst, isAscii w :=
  ⟨by decide, by decide, by decide, by decide,
    findSequences_emits_iff cfgDepth3 grammarAnBn (by decide) (by decide) "S".toList (by decide)
      3 [] 21 (by decide)⟩

theorem findSequencesStdout_eq (cfg : Config) (trs : List Transition) :
    ∀ (fuel : Nat) (s : Str) (depth : Int) (path : List Str),
      findSequencesStdout cfg trs fuel s depth path =
        (findSequences cfg trs fuel s depth path).map
          (fun out => out.flatMap (printResult cfg)) := by
  intro fuel
  induction fuel with
  | zero => intro s depth path; rfl
  | succ fuel ih =>
    intro s depth path
    unfold findSequencesStdout findSequences
    by_cases hnt : checkNonTerminal s
    · by_cases hd : depth = 0
      · simp [hnt, hd]
      · simp only [hnt, Bool.not_true, Bool.false_eq_true, if_false, hd]
        rw [← forTransitions_map _ (by simp) (by simp)]
        congr 1
        funext tr
        rw [← scanLoop_map _ (by simp) (by simp)]
        congr 1
        funext last
        exact ih _ _ _
    · by_cases hb : (!checkMaxLen cfg s || !checkMinLen cfg s) = true
      · simp [hnt, hb]
      · simp [hnt, hb, printResult]

theorem forwardOut_path_extends (cfg : Config) (trs : List Transition) :
    ∀ (d : Nat) (s : Str) (path : List Str), ∀ r ∈ forwardOut cfg trs d s path,
      ∃ rest : List Str, r.2 = path ++ rest := by
  intro d
  induction d with
  | zero =>
    intro s path r hr
    cases hnt : checkNonTerminal s with
    | true => rw [forwardOut_zero_nonterminal cfg trs s path hnt] at hr; simp at hr
    | false =>
      rw [forwardOut_terminal cfg trs 0 s path hnt] at hr
      by_cases hb : withinBounds cfg s
      · simp only [hb, if_true, List.mem_singleton] at hr
        exact ⟨[], by rw [hr]; simp⟩
      · simp [hb] at hr
  | succ d ih =>
    intro s path r hr
    cases hnt : checkNonTerminal s with
    | true =>
      rw [forwardOut_succ_nonterminal cfg trs d s path hnt] at hr
      simp only [List.mem_flatMap] at hr
      obtain ⟨tr, _, i, _, hin⟩ := hr
      obtain ⟨rest, hrest⟩ := ih _ _ r hin
      exact ⟨_ :: rest, by rw [hrest, List.append_assoc]; rfl⟩
    | false =>
      rw [forwardOut_terminal cfg trs (d + 1) s path hnt] at hr
      by_cases hb : withinBounds cfg s
      · simp only [hb, if_true, List.mem_singleton] at hr
        exact ⟨[], by rw [hr]; simp⟩
      · simp [hb] at hr

/-- C18: for non-empty patterns, a sequence `s` with an uppercase letter, a depth `d ≥ 1`
and enough fuel, the run of `findSequences` on `s` returns, and for every rule `(p, r)`
of the rule set and every offset `i` at which `p` occurs in `s`, the step it records is
`"('" + s[:i] + "[" + p + "]" + s[i+len(p):] + "'=>'" + r + "')"`: taking the two
brackets out gives back `s`, the recursive call on `s` rewritten at `i` runs with the
path extended by exactly this string, every result of that call carries the string at
that place of its path, and the results of the run are those of these calls.  The text
the run writes is, result by result, the steps joined by `","` and a blank (in verbose
mode), then the result sequence in single quotes and a line end; so is the text written
for any sequence that is emitted directly. -/
theorem recorded_step_format (cfg : Config) (trs : List Transition)
    (hpat : ∀ tr ∈ trs, tr.from_ ≠ []) (s : Str) (hs : hasUpper s) (d : Nat) (hd : 1 ≤ d)
    (path : List Str) (fuel : Nat) (hfuel : fuelBound trs s d ≤ fuel) :
    ∃ (out : List Result) (childOut : Transition → Nat → List Result),
      findSequences cfg trs fuel s (d : Int) path = some out ∧
      out = trs.flatMap (fun tr => (occurrences s tr.from_).flatMap (childOut tr)) ∧
      (∀ tr ∈ trs, ∀ i, occursAt s tr.from_ i → ∃ step : Str,
        step = "('".toList ++ (s.take i ++ "[".toList ++ tr.from_ ++ "]".toList ++
            s.drop (i + tr.from_.length)) ++ "'=>'".toList ++ tr.to_ ++ "')".toList ∧
        s.take i ++ tr.from_ ++ s.drop (i + tr.from_.length) = s ∧
        (∀ fuel', fuelBound trs (s.take i ++ tr.to_ ++ s.drop (i + tr.from_.length)) (d - 1)
            ≤ fuel' →
          findSequences cfg trs fuel' (s.take i ++ tr.to_ ++ s.drop (i + tr.from_.length))
            ((d : Int) - 1) (path ++ [step]) = some (childOut tr i)) ∧
        ∀ res ∈ childOut tr i, ∃ rest : List Str, res.2 = path ++ step :: rest) ∧
      findSequencesStdout cfg trs fuel s (d : Int) path =
        some (out.flatMap (fun res =>
          (if cfg.verbose then stringsJoin res.2 ",".toList ++ " ".toList else []) ++
            ("'".toList ++ res.1 ++ "'".toList ++ "\n".toList))) ∧
      ∀ (t : Str) (p : List Str) (depth : Int) (fuel' : Nat),
        checkNonTerminal t = false → withinBounds cfg t →
          findSequences cfg trs (fuel' + 1) t depth p = some [(t, p)] ∧
          findSequencesStdout cfg trs (fuel' + 1) t depth p =
            some ((if cfg.verbose then stringsJoin p ",".toList ++ " ".toList else []) ++
              ("'".toList ++ t ++ "'".toList ++ "\n".toList)) := by
  obtain ⟨d, rfl⟩ : ∃ d', d = d' + 1 := ⟨d - 1, by omega⟩
  have hrun := findSequences_eq_forwardOut cfg trs hpat (d + 1) fuel s path hfuel
  refine ⟨_, fun tr i => forwardOut cfg trs d (replaceFrom s tr.from_ tr.to_ i)
      (path ++ [sprintfStep (addBrackets s i (i + tr.from_.length)) tr.to_]), hrun,
    forwardOut_succ_nonterminal cfg trs d s path (checkNonTerminal_of_hasUpper s hs), ?_, ?_, ?_⟩
  · intro tr _ i hocc
    have hstep : sprintfStep (addBrackets s i (i + tr.from_.length)) tr.to_ =
        "('".toList ++ (s.take i ++ "[".toList ++ tr.from_ ++ "]".toList ++
            s.drop (i + tr.from_.length)) ++ "'=>'".toList ++ tr.to_ ++ "')".toList := by
      unfold sprintfStep
      rw [addBrackets_occursAt s tr.from_ i hocc]
    have hrw : replaceFrom s tr.from_ tr.to_ i =
        s.take i ++ tr.to_ ++ s.drop (i + tr.from_.length) :=
      replaceFrom_occursAt s tr.from_ tr.to_ i hocc
    refine ⟨_, rfl, unbracket_occursAt s tr.from_ i hocc, ?_, ?_⟩
    · intro fuel' hfuel'
      have hd1 : ((d + 1 : Nat) : Int) - 1 = (d : Int) := by omega
      have hd2 : d + 1 - 1 = d := by omega
      rw [hd2] at hfuel'
      rw [hd1, ← hstep, ← hrw]
      rw [← hrw] at hfuel'
      exact findSequences_eq_forwardOut cfg trs hpat d fuel' _ _ hfuel'
    · intro res hres
      rw [← hstep]
      obtain ⟨rest, hrest⟩ := forwardOut_path_extends cfg trs d _ _ res hres
      exact ⟨rest, by rw [hrest, List.append_assoc]; rfl⟩
  · rw [findSequencesStdout_eq, hrun]
    rfl
  · intro t p depth fuel' ht hb
    have hb' := (bounds_check_iff cfg t).2 hb
    constructor
    · simp [findSequences, ht, hb']
    · simp [findSequencesStdout, ht, hb']

theorem recorded_step_format_witness :
    (∀ tr ∈ grammarAnBn, tr.from_ ≠ []) ∧ hasUpper "S".toList ∧ 1 ≤ 2 ∧
      fuelBound grammarAnBn "S".toList 2 ≤ 15 ∧
      findSequencesStdout cfgVerbose grammarAnBn 15 "S".toList ((2 : Nat) : Int) [] =
        some "('[S]'=>'aSb'),('a[S]b'=>'') 'ab'\n('[S]'=>'') ''\n".toList ∧
      ∃ (out : List Result) (childOut : Transition → Nat → List Result),
        findSequences cfgVerbose grammarAnBn 15 "S".toList ((2 : Nat) : Int) [] = some out ∧
        out = grammarAnBn.flatMap
          (fun tr => (occurrences "S".toList tr.from_).flatMap (childOut tr)) ∧
        (∀ tr ∈ grammarAnBn, ∀ i, occursAt "S".toList tr.from_ i → ∃ step : Str,
          step = "('".toList ++ ("S".toList.take i ++ "[".toList ++ tr.from_ ++ "]".toList ++
              "S".toList.drop (i + tr.from_.length)) ++ "'=>'".toList ++ tr.to_ ++
              "')".toList ∧
          "S".toList.take i ++ tr.from_ ++ "S".toList.drop (i + tr.from_.length) = "S".toList ∧
          (∀ fuel', fuelBound grammarAnBn
              ("S".toList.take i ++ tr.to_ ++ "S".toList.drop (i + tr.from_.length)) (2 - 1)
              ≤ fuel' →
            findSequences cfgVerbose grammarAnBn fuel'
              ("S".toList.take i ++ tr.to_ ++ "S".toList.drop (i + tr.from_.length))
              (((2 : Nat) : Int) - 1) ([] ++ [step]) = some (childOut tr i)) ∧
          ∀ res ∈ childOut tr i, ∃ rest : List Str, res.2 = [] ++ step :: rest) ∧
        findSequencesStdout cfgVerbose grammarAnBn 15 "S".toList ((2 : Nat) : Int) [] =
          some (out.flatMap (fun res =>
            (if cfgVerbose.verbose then stringsJoin res.2 ",".toList ++ " ".toList else []) ++
              ("'".toList ++ res.1 ++ "'".toList ++ "\n".toList))) ∧
        ∀ (t : Str) (p : List Str) (depth : Int) (fuel' : Nat),
          checkNonTerminal t = false → withinBounds cfgVerbose t →
            findSequences cfgVerbose grammarAnBn (fuel' + 1) t depth p = some [(t, p)] ∧
            findSequencesStdout cfgVerbose grammarAnBn (fuel' + 1) t depth p =
              some ((if cfgVerbose.verbose then stringsJoin p ",".toList ++ " ".toList
                  else []) ++
                ("'".toList ++ t ++ "'".toList ++ "\n".toList)) :=
  ⟨by decide, ⟨'S', by decide, by decide⟩, by decide, by decide, by decide,
    recorded_step_format cfgVerbose grammarAnBn (by decide) "S".toList
      ⟨'S', by decide, by decide⟩ 2 (by decide) [] 15 (by decide)⟩

end TransLabs
